import Mathlib

/-!
Shallow embedding of the flow-evaluation engine of the decision-tree
repository (`src/types/index.ts` and the trace computation in
`src/context/FlowContext.tsx`), together with theorems settling the
frozen claims about it.

Modelling conventions:
* JavaScript values `string | number | boolean` become the inductive
  `Value`; JS strict equality (`===` / `!==`) becomes decidable equality
  on `Value`.  Numbers are modelled as `Int` (the claims only exercise
  integral values and `typeof`-based dispatch).
* JS `Set` (insertion ordered, membership-deduplicated) becomes a
  `List` updated through `setAdd`; JS `Map` becomes an association
  `List` updated through `mapSet` (overwrite in place, else append).
* `String(v)` becomes `valueToString`; `localeCompare`-based sorting is
  modelled as code-point `≤` on strings, realised by the stable
  `List.insertionSort` (JS `Array.prototype.sort` is stable).
* The `while` loops of the two breadth-first traversals become
  well-founded recursion on an explicit measure.
-/

namespace DecisionTree

/-- A JS value occurring in rules and simulation contexts:
`string | number | boolean`. -/
inductive Value where
  | str (s : String)
  | num (n : Int)
  | bool (b : Bool)
deriving DecidableEq, Repr

/-- `typeof v === 'boolean'`. -/
def Value.isBooleanVal : Value → Bool
  | .bool _ => true
  | _ => false

/-- `typeof v === 'number'`. -/
def Value.isNumberVal : Value → Bool
  | .num _ => true
  | _ => false

/-- JS `String(v)` on the three value shapes. -/
def valueToString : Value → String
  | .str s => s
  | .num n => toString n
  | .bool b => if b then "true" else "false"

/-- Rule operators (`src/types/index.ts`, `RuleOperator`). -/
inductive RuleOperator where
  | is
  | is_not
  | greater_than
  | less_than
deriving DecidableEq, Repr

/-- A single rule on an edge (`EdgeRule`). -/
structure EdgeRule where
  id : String
  condition : String
  operator : RuleOperator
  value : Value
deriving DecidableEq, Repr

/-- Node payload (`FeatureNodeData`); the engine itself only reads ids. -/
structure FeatureNodeData where
  label : String
  description : Option String := none
deriving DecidableEq, Repr

/-- A feature node.  The 2-D position of the React Flow node is not
read by the engine and is omitted. -/
structure FeatureNode where
  id : String
  data : FeatureNodeData := { label := "" }
deriving DecidableEq, Repr

/-- The optional `data` payload of an edge: `data?: { rules?: EdgeRule[] }`. -/
structure EdgeData where
  rules : Option (List EdgeRule) := none
deriving DecidableEq, Repr

/-- An edge (`FeatureEdge`): id, source node id, target node id and the
optional rules payload. -/
structure FeatureEdge where
  id : String
  source : String
  target : String
  data : Option EdgeData := none
deriving DecidableEq, Repr

/-- A simulation context (`SimulationState`): a finite mapping from
condition names to values, modelled as an association list (first
binding wins, mirroring unique JS object keys). -/
abbrev SimulationState := List (String × Value)

/-- `state[condition]`: `some v` when the condition is bound, `none`
for JS `undefined`. -/
def lookupState (state : SimulationState) (condition : String) : Option Value :=
  match state with
  | [] => none
  | (k, v) :: rest => if k = condition then some v else lookupState rest condition

/-- `evaluateRule` (`src/types/index.ts` lines 67-85): an absent
condition passes; `is`/`is_not` are strict (in)equality; the numeric
comparisons require both sides to be numbers and otherwise yield
`false`. -/
def evaluateRule (rule : EdgeRule) (state : SimulationState) : Bool :=
  match lookupState state rule.condition with
  | none => true
  | some currentValue =>
    match rule.operator with
    | .is => currentValue == rule.value
    | .is_not => !(currentValue == rule.value)
    | .greater_than =>
      match currentValue, rule.value with
      | .num a, .num b => decide (a > b)
      | _, _ => false
    | .less_than =>
      match currentValue, rule.value with
      | .num a, .num b => decide (a < b)
      | _, _ => false

/-- `edge.data?.rules || []`. -/
def getRules (edge : FeatureEdge) : List EdgeRule :=
  match edge.data with
  | none => []
  | some d =>
    match d.rules with
    | none => []
    | some rs => rs

/-- `evaluateEdgeRules` (`src/types/index.ts` lines 88-92): AND over
the edge's rules, `true` when there are none. -/
def evaluateEdgeRules (edge : FeatureEdge) (state : SimulationState) : Bool :=
  let rules := getRules edge
  if rules.length = 0 then true
  else rules.all fun rule => evaluateRule rule state

/-- JS `Set.add` on a set kept as an insertion-ordered duplicate-free
list: append the element when it is not already present. -/
def setAdd (s : List String) (x : String) : List String :=
  if s.contains x then s else s ++ [x]

/-- JS `Map.set` on an insertion-ordered association list: overwrite an
existing binding in place, otherwise append a new one. -/
def mapSet (m : List (String × Bool)) (k : String) (v : Bool) :
    List (String × Bool) :=
  match m with
  | [] => [(k, v)]
  | (k', v') :: rest =>
    if k' = k then (k, v) :: rest else (k', v') :: mapSet rest k v

/-- JS `Map.get` (`Map.has` is `(mapLookup m k).isSome`). -/
def mapLookup (m : List (String × Bool)) (k : String) : Option Bool :=
  match m with
  | [] => none
  | (k', v) :: rest => if k' = k then some v else mapLookup rest k

/-- Result of `evaluateFlow` (`FlowEvaluationResult`). -/
structure FlowEvaluationResult where
  reachableNodes : List String
  validEdges : List (String × Bool)
deriving DecidableEq, Repr

/-- Root nodes: the nodes that are not the `target` of any edge
(`evaluateFlow` lines 109-111). -/
def rootNodes (nodes : List FeatureNode) (edges : List FeatureEdge) :
    List FeatureNode :=
  nodes.filter fun n => !(edges.any fun e => e.target == n.id)

/-- The body of the inner `for (const edge of nodeEdges)` loop of
`evaluateFlow` (lines 138-151), folded over the outgoing edges of the
node just popped: record each edge's validity and, when valid, add the
target to the reachable set and push it on the queue. -/
def processEdges (state : SimulationState) (nodeEdges : List FeatureEdge)
    (reachable : List String) (validEdges : List (String × Bool))
    (queue : List String) :
    List String × List (String × Bool) × List String :=
  match nodeEdges with
  | [] => (reachable, validEdges, queue)
  | edge :: rest =>
    let sourceReachable := reachable.contains edge.source
    let rulesPass := evaluateEdgeRules edge state
    let edgeValid := sourceReachable && rulesPass
    let validEdges' := mapSet validEdges edge.id edgeValid
    if edgeValid then
      processEdges state rest (setAdd reachable edge.target) validEdges'
        (queue ++ [edge.target])
    else
      processEdges state rest reachable validEdges' queue

theorem processEdges_queue_length (state : SimulationState)
    (nodeEdges : List FeatureEdge) (reachable : List String)
    (validEdges : List (String × Bool)) (queue : List String) :
    (processEdges state nodeEdges reachable validEdges queue).2.2.length ≤
      queue.length + nodeEdges.length := by
  induction nodeEdges generalizing reachable validEdges queue with
  | nil => simp [processEdges]
  | cons edge rest ih =>
    simp only [processEdges]
    split
    · have h := ih (setAdd reachable edge.target)
        (mapSet validEdges edge.id
          (reachable.contains edge.source && evaluateEdgeRules edge state))
        (queue ++ [edge.target])
      simp only [List.length_append, List.length_cons, List.length_nil] at h ⊢
      omega
    · have h := ih reachable
        (mapSet validEdges edge.id
          (reachable.contains edge.source && evaluateEdgeRules edge state))
        queue
      simp only [List.length_cons] at h ⊢
      omega

theorem contains_setAdd (s : List String) (x y : String) :
    (setAdd s x).contains y = (s.contains y || y == x) := by
  simp only [setAdd, List.elem_eq_mem, beq_iff_eq]
  by_cases hx : x ∈ s
  · simp only [hx, decide_True, if_true]
    by_cases hxy : y = x
    · subst hxy; simp [hx]
    · simp [hxy]
  · simp only [hx, decide_False, if_false, List.mem_append, List.mem_singleton]
    by_cases hxy : y = x <;> simp [hxy]

theorem length_filter_setAdd (edges : List FeatureEdge) (visited : List String)
    (nodeId : String) (h : visited.contains nodeId = false) :
    ((edges.filter fun e => !((setAdd visited nodeId).contains e.source)).length +
      (edges.filter fun e => e.source == nodeId).length) =
    (edges.filter fun e => !(visited.contains e.source)).length := by
  simp only [contains_setAdd]
  induction edges with
  | nil => simp
  | cons e rest ih =>
    simp only [List.filter_cons]
    by_cases hsrc : e.source = nodeId
    · have h1 : (e.source == nodeId) = true := by simpa using hsrc
      have h2 : visited.contains e.source = false := by rw [hsrc]; exact h
      simp only [h1, h2, Bool.or_true, Bool.not_true, Bool.not_false, if_false, if_true,
        Bool.false_eq_true, List.length_cons]
      omega
    · have h1 : (e.source == nodeId) = false := by simpa using hsrc
      simp only [h1, Bool.or_false, Bool.false_eq_true, if_false, List.length_cons]
      split
      · simp only [List.length_cons]; omega
      · omega

/-- The `while (queue.length > 0)` loop of `evaluateFlow`
(lines 131-152): pop a node, skip it when already visited, otherwise
mark it visited and process its outgoing edges.  Terminates because the
count of edges with an unvisited source plus the queue length strictly
decreases. -/
def bfsLoop (edges : List FeatureEdge) (state : SimulationState)
    (queue visited reachable : List String)
    (validEdges : List (String × Bool)) :
    List String × List (String × Bool) :=
  match queue with
  | [] => (reachable, validEdges)
  | nodeId :: rest =>
    if h : visited.contains nodeId then
      bfsLoop edges state rest visited reachable validEdges
    else
      let visited' := setAdd visited nodeId
      let nodeEdges := edges.filter fun e => e.source == nodeId
      let res := processEdges state nodeEdges reachable validEdges rest
      bfsLoop edges state res.2.2 visited' res.1 res.2.1
termination_by
  (edges.filter fun e => !(visited.contains e.source)).length + queue.length
decreasing_by
  · simp only [List.length_cons]; omega
  · have h1 := processEdges_queue_length state
      (edges.filter fun e => e.source == nodeId) reachable validEdges rest
    have h2 := length_filter_setAdd edges visited nodeId (by simpa using h)
    simp only [List.length_cons]
    omega

/-- The final sweep of `evaluateFlow` (lines 155-159): record any edge
id not yet present in the validity map as `false`. -/
def sweepEdges (edges : List FeatureEdge) (m : List (String × Bool)) :
    List (String × Bool) :=
  edges.foldl
    (fun m' e => if (mapLookup m' e.id).isSome then m' else mapSet m' e.id false) m

/-- `evaluateFlow` (`src/types/index.ts` lines 101-162): seed the
reachable set and the queue with the root nodes, run the breadth-first
propagation, then record every edge not yet present in the validity map
as `false`. -/
def evaluateFlow (nodes : List FeatureNode) (edges : List FeatureEdge)
    (state : SimulationState) : FlowEvaluationResult :=
  let roots := rootNodes nodes edges
  let reachable0 := roots.foldl (fun s n => setAdd s n.id) []
  let queue0 := roots.map (·.id)
  let res := bfsLoop edges state queue0 [] reachable0 []
  { reachableNodes := res.1, validEdges := sweepEdges edges res.2 }

/-- The body of the inner `for (const edge of incoming)` loop of the
trace computation (`FlowContext.tsx`): highlight each incoming edge
and, when its source is not yet highlighted, highlight and enqueue the
source. -/
def traceProcess (incoming : List FeatureEdge)
    (hNodes hEdges queue : List String) :
    List String × List String × List String :=
  match incoming with
  | [] => (hNodes, hEdges, queue)
  | edge :: rest =>
    let hEdges' := setAdd hEdges edge.id
    if hNodes.contains edge.source then
      traceProcess rest hNodes hEdges' queue
    else
      traceProcess rest (setAdd hNodes edge.source) hEdges'
        (queue ++ [edge.source])

theorem traceProcess_measure (edges incoming : List FeatureEdge)
    (hNodes hEdges queue : List String)
    (hsub : ∀ e ∈ incoming, e ∈ edges) :
    ((edges.filter fun e =>
        !((traceProcess incoming hNodes hEdges queue).1.contains e.source)).length +
      (traceProcess incoming hNodes hEdges queue).2.2.length) ≤
    (edges.filter fun e => !(hNodes.contains e.source)).length + queue.length := by
  induction incoming generalizing hNodes hEdges queue with
  | nil => simp [traceProcess]
  | cons edge rest ih =>
    simp only [traceProcess]
    split
    · exact le_trans
        (ih hNodes (setAdd hEdges edge.id) queue
          (fun e he => hsub e (List.mem_cons_of_mem _ he))) (le_refl _)
    · rename_i hnc
      have hc : hNodes.contains edge.source = false := by
        simpa using hnc
      have h2 := length_filter_setAdd edges hNodes edge.source hc
      have hmem : edge ∈ edges.filter fun e => e.source == edge.source := by
        refine List.mem_filter.mpr ⟨hsub edge (List.mem_cons_self _ _), by simp⟩
      have hpos : 1 ≤ (edges.filter fun e => e.source == edge.source).length :=
        List.length_pos_of_mem hmem
      have h3 := ih (setAdd hNodes edge.source) (setAdd hEdges edge.id)
        (queue ++ [edge.source])
        (fun e he => hsub e (List.mem_cons_of_mem _ he))
      simp only [List.length_append, List.length_cons, List.length_nil] at h3 ⊢
      omega

/-- The `while (queue.length > 0)` loop of the ancestor-trace
computation (`FlowContext.tsx` lines 102-117): pop a node and process
its incoming edges. -/
def traceLoop (edges : List FeatureEdge)
    (queue hNodes hEdges : List String) : List String × List String :=
  match queue with
  | [] => (hNodes, hEdges)
  | nodeId :: rest =>
    let incoming := edges.filter fun e => e.target == nodeId
    let res := traceProcess incoming hNodes hEdges rest
    traceLoop edges res.2.2 res.1 res.2.1
termination_by
  (edges.filter fun e => !(hNodes.contains e.source)).length + queue.length
decreasing_by
  have h1 := traceProcess_measure edges
    (edges.filter fun e => e.target == nodeId) hNodes hEdges rest
    (fun e he => List.mem_of_mem_filter he)
  simp only [List.length_cons]
  omega

/-- The ancestor-trace computation of `FlowContext.tsx` (the
`traceHighlight` memo, lines 85-120) for an active trace mode and a
hovered node: seed both the highlighted-node set and the queue with the
hovered node and walk the graph backward.  It takes no simulation
context and reads no rule contents: only edge ids, sources and
targets. -/
def traceHighlight (hoveredNodeId : String) (edges : List FeatureEdge) :
    List String × List String :=
  traceLoop edges [hoveredNodeId] [hoveredNodeId] []

/-- Inferred type of a discovered condition (`ConditionType`). -/
inductive ConditionType where
  | boolean
  | enum
  | number
deriving DecidableEq, Repr

/-- One entry of the discovered schema (`ConditionSchema`). -/
structure ConditionSchema where
  name : String
  type : ConditionType
  options : List Value
deriving DecidableEq, Repr

/-- JS `Set.add` on a set of values. -/
def setAddValue (vs : List Value) (v : Value) : List Value :=
  if vs.contains v then vs else vs ++ [v]

/-- One step of filling `conditionMap` in `discoverConditions`:
`if (!map.has(cond)) map.set(cond, new Set()); map.get(cond).add(v)`. -/
def condInsert (m : List (String × List Value)) (c : String) (v : Value) :
    List (String × List Value) :=
  match m with
  | [] => [(c, [v])]
  | (k, vs) :: rest =>
    if k = c then (k, setAddValue vs v) :: rest
    else (k, vs) :: condInsert rest c v

/-- The `conditionMap` accumulation of `discoverConditions`
(lines 166-176): for each edge, for each rule, add the rule's value to
the per-condition value set. -/
def conditionMap (edges : List FeatureEdge) : List (String × List Value) :=
  edges.foldl
    (fun m e => (getRules e).foldl (fun m' r => condInsert m' r.condition r.value) m)
    []

/-- Lexicographic code-point comparison of character lists: the
embedding of string `localeCompare` ordering. -/
def charListLe : List Char → List Char → Bool
  | [], _ => true
  | _ :: _, [] => false
  | a :: as, b :: bs =>
    if a.toNat < b.toNat then true
    else if b.toNat < a.toNat then false
    else charListLe as bs

/-- `s.localeCompare(t) <= 0`, modelled as code-point lexicographic
comparison. -/
def strLe (s t : String) : Bool := charListLe s.data t.data

/-- The comparator `(a, b) => String(a).localeCompare(String(b))` of
`discoverConditions`, as the ordering it induces on values. -/
def valueLe (a b : Value) : Prop :=
  strLe (valueToString a) (valueToString b) = true

instance : DecidableRel valueLe := fun a b =>
  inferInstanceAs (Decidable (_ = true))

/-- The comparator `(a, b) => a.name.localeCompare(b.name)` on schema
entries. -/
def schemaLe (a b : ConditionSchema) : Prop := strLe a.name b.name = true

instance : DecidableRel schemaLe := fun a b =>
  inferInstanceAs (Decidable (_ = true))

/-- Type inference of `discoverConditions` (lines 183-189): `boolean`
when every observed value is boolean, else `number` when every observed
value is a number, else `enum`. -/
def inferConditionType (values : List Value) : ConditionType :=
  if values.all Value.isBooleanVal then .boolean
  else if values.all Value.isNumberVal then .number
  else .enum

/-- `discoverConditions` (`src/types/index.ts` lines 165-199): build
the per-condition value sets, infer each type, sort each value list by
the string form of the values, and sort the entries by name.  The JS
`Array.prototype.sort` is stable; `List.insertionSort` is its stable
counterpart here. -/
def discoverConditions (edges : List FeatureEdge) : List ConditionSchema :=
  let m := conditionMap edges
  let conditions := m.map fun p =>
    { name := p.1
      type := inferConditionType p.2
      options := p.2.insertionSort valueLe : ConditionSchema }
  conditions.insertionSort schemaLe

/-! ### Basic facts about the embedded JS sets and maps -/

theorem mem_setAdd {s : List String} {x y : String} :
    y ∈ setAdd s x ↔ y ∈ s ∨ y = x := by
  unfold setAdd
  split
  · rename_i h
    constructor
    · exact Or.inl
    · rintro (hy | rfl)
      · exact hy
      · simpa using h
  · simp [List.mem_append]

theorem subset_setAdd {s : List String} {x y : String} (h : y ∈ s) :
    y ∈ setAdd s x := mem_setAdd.mpr (Or.inl h)

theorem self_mem_setAdd {s : List String} {x : String} :
    x ∈ setAdd s x := mem_setAdd.mpr (Or.inr rfl)

theorem mapLookup_mapSet_self (m : List (String × Bool)) (k : String) (v : Bool) :
    mapLookup (mapSet m k v) k = some v := by
  induction m with
  | nil => simp [mapSet, mapLookup]
  | cons p rest ih =>
    obtain ⟨k', v'⟩ := p
    by_cases h : k' = k
    · simp [mapSet, mapLookup, h]
    · simp [mapSet, mapLookup, h, ih]

theorem mapLookup_mapSet_ne (m : List (String × Bool)) {k k' : String} (v : Bool)
    (h : k' ≠ k) : mapLookup (mapSet m k v) k' = mapLookup m k' := by
  induction m with
  | nil => simp [mapSet, mapLookup, Ne.symm h]
  | cons p rest ih =>
    obtain ⟨k0, v0⟩ := p
    by_cases h0 : k0 = k
    · subst h0
      simp [mapSet, mapLookup, Ne.symm h]
    · by_cases h1 : k0 = k'
      · simp [mapSet, mapLookup, h0, h1, h]
      · simp [mapSet, mapLookup, h0, h1, ih]

theorem mapLookup_isSome_iff (m : List (String × Bool)) (k : String) :
    (mapLookup m k).isSome ↔ k ∈ m.map Prod.fst := by
  induction m with
  | nil => simp [mapLookup]
  | cons p rest ih =>
    obtain ⟨k0, v0⟩ := p
    by_cases h : k0 = k
    · simp [mapLookup, h]
    · simp [mapLookup, h, ih, Ne.symm h]

theorem mapSet_keys_of_mem (m : List (String × Bool)) (k : String) (v : Bool)
    (h : k ∈ m.map Prod.fst) :
    (mapSet m k v).map Prod.fst = m.map Prod.fst := by
  induction m with
  | nil => simp at h
  | cons p rest ih =>
    obtain ⟨k0, v0⟩ := p
    by_cases h0 : k0 = k
    · simp [mapSet, h0]
    · have hk : k ∈ rest.map Prod.fst := by
        simp only [List.map_cons, List.mem_cons] at h
        rcases h with h | h
        · exact absurd h.symm h0
        · exact h
      simp [mapSet, h0, ih hk]

theorem mapSet_keys_of_not_mem (m : List (String × Bool)) (k : String) (v : Bool)
    (h : k ∉ m.map Prod.fst) :
    (mapSet m k v).map Prod.fst = m.map Prod.fst ++ [k] := by
  induction m with
  | nil => simp [mapSet]
  | cons p rest ih =>
    obtain ⟨k0, v0⟩ := p
    simp only [List.map_cons, List.mem_cons] at h
    push_neg at h
    simp [mapSet, Ne.symm h.1, ih h.2]

theorem mapSet_keys_nodup (m : List (String × Bool)) (k : String) (v : Bool)
    (h : (m.map Prod.fst).Nodup) : ((mapSet m k v).map Prod.fst).Nodup := by
  by_cases hk : k ∈ m.map Prod.fst
  · rw [mapSet_keys_of_mem m k v hk]; exact h
  · rw [mapSet_keys_of_not_mem m k v hk]
    refine List.Nodup.append h (List.nodup_singleton k) ?_
    intro a ha hb
    simp only [List.mem_singleton] at hb
    subst hb
    exact hk ha

/-! ### Invariants of the inner edge-processing loop of `evaluateFlow` -/

theorem processEdges_cons_of_valid {state : SimulationState}
    {edge : FeatureEdge} {rest : List FeatureEdge} {reachable : List String}
    {ve : List (String × Bool)} {q : List String}
    (hv : (reachable.contains edge.source && evaluateEdgeRules edge state) = true) :
    processEdges state (edge :: rest) reachable ve q =
      processEdges state rest (setAdd reachable edge.target)
        (mapSet ve edge.id true) (q ++ [edge.target]) := by
  simp only [processEdges, hv, if_true]

theorem processEdges_cons_of_invalid {state : SimulationState}
    {edge : FeatureEdge} {rest : List FeatureEdge} {reachable : List String}
    {ve : List (String × Bool)} {q : List String}
    (hv : (reachable.contains edge.source && evaluateEdgeRules edge state) = false) :
    processEdges state (edge :: rest) reachable ve q =
      processEdges state rest reachable (mapSet ve edge.id false) q := by
  simp only [processEdges, hv, Bool.false_eq_true, if_false]

theorem processEdges_reachable_mono (state : SimulationState)
    (rem : List FeatureEdge) (reachable : List String)
    (ve : List (String × Bool)) (q : List String) {x : String}
    (hx : x ∈ reachable) :
    x ∈ (processEdges state rem reachable ve q).1 := by
  induction rem generalizing reachable ve q with
  | nil => simpa [processEdges] using hx
  | cons edge rest ih =>
    cases hv : (reachable.contains edge.source && evaluateEdgeRules edge state) with
    | true =>
      rw [processEdges_cons_of_valid hv]
      exact ih (setAdd reachable edge.target) _ _ (subset_setAdd hx)
    | false =>
      rw [processEdges_cons_of_invalid hv]
      exact ih reachable _ _ hx

theorem processEdges_queue_mono (state : SimulationState)
    (rem : List FeatureEdge) (reachable : List String)
    (ve : List (String × Bool)) (q : List String) {x : String}
    (hx : x ∈ q) :
    x ∈ (processEdges state rem reachable ve q).2.2 := by
  induction rem generalizing reachable ve q with
  | nil => simpa [processEdges] using hx
  | cons edge rest ih =>
    cases hv : (reachable.contains edge.source && evaluateEdgeRules edge state) with
    | true =>
      rw [processEdges_cons_of_valid hv]
      exact ih (setAdd reachable edge.target) _ _
        (List.mem_append.mpr (Or.inl hx))
    | false =>
      rw [processEdges_cons_of_invalid hv]
      exact ih reachable _ _ hx

theorem processEdges_queue_spec (state : SimulationState)
    (rem : List FeatureEdge) (reachable : List String)
    (ve : List (String × Bool)) (q : List String) {x : String}
    (hx : x ∈ (processEdges state rem reachable ve q).2.2) :
    x ∈ q ∨ x ∈ (processEdges state rem reachable ve q).1 := by
  induction rem generalizing reachable ve q with
  | nil => simp only [processEdges] at hx ⊢; exact Or.inl hx
  | cons edge rest ih =>
    cases hv : (reachable.contains edge.source && evaluateEdgeRules edge state) with
    | true =>
      rw [processEdges_cons_of_valid hv] at hx ⊢
      rcases ih (setAdd reachable edge.target) (mapSet ve edge.id true)
        (q ++ [edge.target]) hx with hq | hr
      · rcases List.mem_append.mp hq with hq | hq
        · exact Or.inl hq
        · refine Or.inr ?_
          have : x ∈ setAdd reachable edge.target := by
            simp only [List.mem_singleton] at hq
            rw [hq]
            exact self_mem_setAdd
          exact processEdges_reachable_mono state rest _ _ _ this
      · exact Or.inr hr
    | false =>
      rw [processEdges_cons_of_invalid hv] at hx ⊢
      exact ih reachable _ _ hx

theorem processEdges_reachable_spec (state : SimulationState)
    (rem : List FeatureEdge) (reachable : List String)
    (ve : List (String × Bool)) (q : List String) {x : String}
    (hx : x ∈ (processEdges state rem reachable ve q).1) :
    x ∈ reachable ∨
      ∃ e ∈ rem, e.target = x ∧ evaluateEdgeRules e state = true := by
  induction rem generalizing reachable ve q with
  | nil => simp only [processEdges] at hx; exact Or.inl hx
  | cons edge rest ih =>
    cases hv : (reachable.contains edge.source && evaluateEdgeRules edge state) with
    | true =>
      rw [processEdges_cons_of_valid hv] at hx
      rcases ih (setAdd reachable edge.target) (mapSet ve edge.id true)
        (q ++ [edge.target]) hx with hr | ⟨e, he, ht, hrules⟩
      · rcases mem_setAdd.mp hr with hr | rfl
        · exact Or.inl hr
        · exact Or.inr ⟨edge, List.mem_cons_self _ _, rfl,
            (Bool.and_eq_true_iff.mp hv).2⟩
      · exact Or.inr ⟨e, List.mem_cons_of_mem _ he, ht, hrules⟩
    | false =>
      rw [processEdges_cons_of_invalid hv] at hx
      rcases ih reachable (mapSet ve edge.id false) q hx with hr | ⟨e, he, ht, hrules⟩
      · exact Or.inl hr
      · exact Or.inr ⟨e, List.mem_cons_of_mem _ he, ht, hrules⟩

theorem processEdges_reachable_in_queue (state : SimulationState)
    (rem : List FeatureEdge) (reachable : List String)
    (ve : List (String × Bool)) (q : List String) {x : String}
    (hx : x ∈ (processEdges state rem reachable ve q).1) :
    x ∈ reachable ∨ x ∈ (processEdges state rem reachable ve q).2.2 := by
  induction rem generalizing reachable ve q with
  | nil => simp only [processEdges] at hx ⊢; exact Or.inl hx
  | cons edge rest ih =>
    cases hv : (reachable.contains edge.source && evaluateEdgeRules edge state) with
    | true =>
      rw [processEdges_cons_of_valid hv] at hx ⊢
      rcases ih (setAdd reachable edge.target) (mapSet ve edge.id true)
        (q ++ [edge.target]) hx with hr | hq
      · rcases mem_setAdd.mp hr with hr | rfl
        · exact Or.inl hr
        · exact Or.inr (processEdges_queue_mono state rest _ _ _
            (List.mem_append.mpr (Or.inr (List.mem_singleton.mpr rfl))))
      · exact Or.inr hq
    | false =>
      rw [processEdges_cons_of_invalid hv] at hx ⊢
      exact ih reachable _ _ hx

theorem processEdges_lookup_other (state : SimulationState)
    (rem : List FeatureEdge) (reachable : List String)
    (ve : List (String × Bool)) (q : List String) (k : String)
    (hk : ∀ e ∈ rem, e.id ≠ k) :
    mapLookup (processEdges state rem reachable ve q).2.1 k = mapLookup ve k := by
  induction rem generalizing reachable ve q with
  | nil => simp [processEdges]
  | cons edge rest ih =>
    have hne : k ≠ edge.id := Ne.symm (hk edge (List.mem_cons_self _ _))
    cases hv : (reachable.contains edge.source && evaluateEdgeRules edge state) with
    | true =>
      rw [processEdges_cons_of_valid hv,
        ih _ _ _ (fun e he => hk e (List.mem_cons_of_mem _ he)),
        mapLookup_mapSet_ne _ _ hne]
    | false =>
      rw [processEdges_cons_of_invalid hv,
        ih _ _ _ (fun e he => hk e (List.mem_cons_of_mem _ he)),
        mapLookup_mapSet_ne _ _ hne]

theorem processEdges_lookup_mem (state : SimulationState)
    (rem : List FeatureEdge) (reachable : List String)
    (ve : List (String × Bool)) (q : List String) (nodeId : String)
    (hnodup : (rem.map FeatureEdge.id).Nodup)
    (hsrc : ∀ e ∈ rem, e.source = nodeId)
    (hreach : nodeId ∈ reachable) :
    ∀ e ∈ rem, mapLookup (processEdges state rem reachable ve q).2.1 e.id =
      some (evaluateEdgeRules e state) := by
  induction rem generalizing reachable ve q with
  | nil => intro e he; cases he
  | cons edge rest ih =>
    intro e he
    have hcontains : reachable.contains edge.source = true := by
      rw [hsrc edge (List.mem_cons_self _ _)]
      simpa using hreach
    have hval : (reachable.contains edge.source && evaluateEdgeRules edge state) =
        evaluateEdgeRules edge state := by
      rw [hcontains, Bool.true_and]
    simp only [List.map_cons, List.nodup_cons] at hnodup
    rcases List.mem_cons.mp he with rfl | he'
    · have hid : ∀ e' ∈ rest, e'.id ≠ e.id := by
        intro e' he' heq
        exact hnodup.1 (heq ▸ List.mem_map_of_mem FeatureEdge.id he')
      cases hrules : evaluateEdgeRules e state with
      | true =>
        rw [processEdges_cons_of_valid (by rw [hval, hrules]),
          processEdges_lookup_other state rest _ _ _ _ hid,
          mapLookup_mapSet_self]
      | false =>
        rw [processEdges_cons_of_invalid (by rw [hval, hrules]),
          processEdges_lookup_other state rest _ _ _ _ hid,
          mapLookup_mapSet_self]
    · cases hrules : evaluateEdgeRules edge state with
      | true =>
        rw [processEdges_cons_of_valid (by rw [hval, hrules])]
        exact ih _ _ _ hnodup.2
          (fun e' h => hsrc e' (List.mem_cons_of_mem _ h))
          (subset_setAdd hreach) e he'
      | false =>
        rw [processEdges_cons_of_invalid (by rw [hval, hrules])]
        exact ih _ _ _ hnodup.2
          (fun e' h => hsrc e' (List.mem_cons_of_mem _ h)) hreach e he'

theorem processEdges_isSome (state : SimulationState)
    (rem : List FeatureEdge) (reachable : List String)
    (ve : List (String × Bool)) (q : List String) (k : String) :
    (mapLookup (processEdges state rem reachable ve q).2.1 k).isSome ↔
      (mapLookup ve k).isSome ∨ ∃ e ∈ rem, e.id = k := by
  induction rem generalizing reachable ve q with
  | nil => simp [processEdges]
  | cons edge rest ih =>
    have hstep : ∀ b, (mapLookup (mapSet ve edge.id b) k).isSome ↔
        (mapLookup ve k).isSome ∨ edge.id = k := by
      intro b
      by_cases hk : k = edge.id
      · subst hk
        simp [mapLookup_mapSet_self]
      · rw [mapLookup_mapSet_ne _ _ hk]
        simp [Ne.symm hk]
    cases hv : (reachable.contains edge.source && evaluateEdgeRules edge state) with
    | true =>
      rw [processEdges_cons_of_valid hv, ih]
      rw [hstep true]
      constructor
      · rintro ((h | h) | ⟨e, he, rfl⟩)
        · exact Or.inl h
        · exact Or.inr ⟨edge, List.mem_cons_self _ _, h⟩
        · exact Or.inr ⟨e, List.mem_cons_of_mem _ he, rfl⟩
      · rintro (h | ⟨e, he, rfl⟩)
        · exact Or.inl (Or.inl h)
        · rcases List.mem_cons.mp he with rfl | he'
          · exact Or.inl (Or.inr rfl)
          · exact Or.inr ⟨e, he', rfl⟩
    | false =>
      rw [processEdges_cons_of_invalid hv, ih]
      rw [hstep false]
      constructor
      · rintro ((h | h) | ⟨e, he, rfl⟩)
        · exact Or.inl h
        · exact Or.inr ⟨edge, List.mem_cons_self _ _, h⟩
        · exact Or.inr ⟨e, List.mem_cons_of_mem _ he, rfl⟩
      · rintro (h | ⟨e, he, rfl⟩)
        · exact Or.inl (Or.inl h)
        · rcases List.mem_cons.mp he with rfl | he'
          · exact Or.inl (Or.inr rfl)
          · exact Or.inr ⟨e, he', rfl⟩

theorem processEdges_keys_nodup (state : SimulationState)
    (rem : List FeatureEdge) (reachable : List String)
    (ve : List (String × Bool)) (q : List String)
    (h : (ve.map Prod.fst).Nodup) :
    ((processEdges state rem reachable ve q).2.1.map Prod.fst).Nodup := by
  induction rem generalizing reachable ve q with
  | nil => simpa [processEdges] using h
  | cons edge rest ih =>
    cases hv : (reachable.contains edge.source && evaluateEdgeRules edge state) with
    | true =>
      rw [processEdges_cons_of_valid hv]
      exact ih _ _ _ (mapSet_keys_nodup _ _ _ h)
    | false =>
      rw [processEdges_cons_of_invalid hv]
      exact ih _ _ _ (mapSet_keys_nodup _ _ _ h)

theorem processEdges_valid_target (state : SimulationState)
    (rem : List FeatureEdge) (reachable : List String)
    (ve : List (String × Bool)) (q : List String) (nodeId : String)
    (hsrc : ∀ e ∈ rem, e.source = nodeId)
    (hreach : nodeId ∈ reachable) :
    ∀ e ∈ rem, evaluateEdgeRules e state = true →
      e.target ∈ (processEdges state rem reachable ve q).1 := by
  induction rem generalizing reachable ve q with
  | nil => intro e he; cases he
  | cons edge rest ih =>
    intro e he hrules
    have hcontains : reachable.contains edge.source = true := by
      rw [hsrc edge (List.mem_cons_self _ _)]
      simpa using hreach
    have hval : (reachable.contains edge.source && evaluateEdgeRules edge state) =
        evaluateEdgeRules edge state := by
      rw [hcontains, Bool.true_and]
    rcases List.mem_cons.mp he with rfl | he'
    · rw [processEdges_cons_of_valid (by rw [hval, hrules])]
      exact processEdges_reachable_mono state rest _ _ _ self_mem_setAdd
    · cases hrulesEdge : evaluateEdgeRules edge state with
      | true =>
        rw [processEdges_cons_of_valid (by rw [hval, hrulesEdge])]
        exact ih _ _ _ (fun e' h => hsrc e' (List.mem_cons_of_mem _ h))
          (subset_setAdd hreach) e he' hrules
      | false =>
        rw [processEdges_cons_of_invalid (by rw [hval, hrulesEdge])]
        exact ih _ _ _ (fun e' h => hsrc e' (List.mem_cons_of_mem _ h))
          hreach e he' hrules

/-! ### The breadth-first loop invariant of `evaluateFlow` -/

theorem contains_eq_true_iff {s : List String} {x : String} :
    s.contains x = true ↔ x ∈ s := by
  simp [List.elem_eq_mem]

theorem bfsLoop_nil (edges : List FeatureEdge) (state : SimulationState)
    (visited reachable : List String) (ve : List (String × Bool)) :
    bfsLoop edges state [] visited reachable ve = (reachable, ve) := by
  simp [bfsLoop]

theorem bfsLoop_cons_visited (edges : List FeatureEdge) (state : SimulationState)
    {visited : List String} {nodeId : String} (rest reachable : List String)
    (ve : List (String × Bool)) (h : visited.contains nodeId = true) :
    bfsLoop edges state (nodeId :: rest) visited reachable ve =
      bfsLoop edges state rest visited reachable ve := by
  rw [bfsLoop, dif_pos h]

theorem bfsLoop_cons_unvisited (edges : List FeatureEdge) (state : SimulationState)
    {visited : List String} {nodeId : String} (rest reachable : List String)
    (ve : List (String × Bool)) (h : visited.contains nodeId = false) :
    bfsLoop edges state (nodeId :: rest) visited reachable ve =
      bfsLoop edges state
        (processEdges state (edges.filter fun e => e.source == nodeId)
          reachable ve rest).2.2
        (setAdd visited nodeId)
        (processEdges state (edges.filter fun e => e.source == nodeId)
          reachable ve rest).1
        (processEdges state (edges.filter fun e => e.source == nodeId)
          reachable ve rest).2.1 := by
  rw [bfsLoop, dif_neg (show ¬visited.contains nodeId = true by simpa using h)]

/-- If the images of a duplicate-free id list agree, the edges agree:
two distinct edges of an id-unique edge list have distinct ids. -/
theorem id_ne_of_src_ne {edges : List FeatureEdge}
    (hids : (edges.map FeatureEdge.id).Nodup) {e e' : FeatureEdge}
    (he : e ∈ edges) (he' : e' ∈ edges) (hne : e.source ≠ e'.source) :
    e.id ≠ e'.id := by
  intro h
  exact hne (congrArg FeatureEdge.source
    (List.inj_on_of_nodup_map hids he he' h))

/-- Invariant of the breadth-first traversal of `evaluateFlow`,
relating the queue, the visited set, the reachable set and the validity
map at the head of each loop iteration. -/
structure BfsInv (edges : List FeatureEdge) (state : SimulationState)
    (queue visited reachable : List String)
    (ve : List (String × Bool)) : Prop where
  queue_reach : ∀ x ∈ queue, x ∈ reachable
  visited_reach : ∀ x ∈ visited, x ∈ reachable
  reach_cover : ∀ x ∈ reachable, x ∈ visited ∨ x ∈ queue
  lookup_eq : ∀ e ∈ edges, mapLookup ve e.id =
      if visited.contains e.source then some (evaluateEdgeRules e state) else none
  true_target : ∀ e ∈ edges, mapLookup ve e.id = some true → e.target ∈ reachable
  keys_sub : ∀ k, (mapLookup ve k).isSome → ∃ e ∈ edges, e.id = k
  keys_nodup : (ve.map Prod.fst).Nodup

/-- What the breadth-first traversal guarantees about its final
reachable set `R` and validity map `V`, relative to the reachable set
and validity map of the call. -/
structure BfsOut (edges : List FeatureEdge) (state : SimulationState)
    (reachable : List String) (ve : List (String × Bool))
    (R : List String) (V : List (String × Bool)) : Prop where
  reach_mono : ∀ x ∈ reachable, x ∈ R
  persist : ∀ k b, mapLookup ve k = some b → mapLookup V k = some b
  lookup_final : ∀ e ∈ edges, mapLookup V e.id =
      if e.source ∈ R then some (evaluateEdgeRules e state) else none
  reach_from : ∀ x ∈ R,
      x ∈ reachable ∨ ∃ e ∈ edges, e.target = x ∧ mapLookup V e.id = some true
  true_target : ∀ e ∈ edges, mapLookup V e.id = some true → e.target ∈ R
  keys_sub : ∀ k, (mapLookup V k).isSome → ∃ e ∈ edges, e.id = k
  keys_nodup : (V.map Prod.fst).Nodup

theorem bfsLoop_spec (edges : List FeatureEdge) (state : SimulationState)
    (hids : (edges.map FeatureEdge.id).Nodup)
    (queue visited reachable : List String) (ve : List (String × Bool))
    (hinv : BfsInv edges state queue visited reachable ve) :
    BfsOut edges state reachable ve
      (bfsLoop edges state queue visited reachable ve).1
      (bfsLoop edges state queue visited reachable ve).2 := by
  induction queue, visited, reachable, ve using bfsLoop.induct edges state with
  | case1 visited reachable ve =>
    rw [bfsLoop_nil]
    refine ⟨fun x hx => hx, fun k b hb => hb, ?_, fun x hx => Or.inl hx,
      hinv.true_target, hinv.keys_sub, hinv.keys_nodup⟩
    intro e he
    rw [hinv.lookup_eq e he]
    by_cases hsrc : e.source ∈ reachable
    · rcases hinv.reach_cover e.source hsrc with hv | hq
      · rw [if_pos (contains_eq_true_iff.mpr hv), if_pos hsrc]
      · cases hq
    · have hv : e.source ∉ visited := fun h => hsrc (hinv.visited_reach _ h)
      rw [if_neg (fun h => hv (contains_eq_true_iff.mp h)), if_neg hsrc]
  | case2 visited reachable ve nodeId rest hvis ih =>
    rw [bfsLoop_cons_visited edges state rest reachable ve hvis]
    refine ih ⟨fun x hx => hinv.queue_reach x (List.mem_cons_of_mem _ hx),
      hinv.visited_reach, ?_, hinv.lookup_eq, hinv.true_target,
      hinv.keys_sub, hinv.keys_nodup⟩
    intro x hx
    rcases hinv.reach_cover x hx with hv | hq
    · exact Or.inl hv
    · rcases List.mem_cons.mp hq with rfl | hq'
      · exact Or.inl (contains_eq_true_iff.mp hvis)
      · exact Or.inr hq'
  | case3 visited reachable ve nodeId rest hnvis visitedStep nodeEdgesStep resStep ih =>
    have hvis : visited.contains nodeId = false := by
      simpa using hnvis
    rw [bfsLoop_cons_unvisited edges state rest reachable ve hvis]
    set nodeEdges := edges.filter fun e => e.source == nodeId with hne
    set res := processEdges state nodeEdges reachable ve rest with hres
    have hnodeId_reach : nodeId ∈ reachable :=
      hinv.queue_reach nodeId (List.mem_cons_self _ _)
    have hsub : ∀ e ∈ nodeEdges, e ∈ edges := fun e he =>
      List.mem_of_mem_filter he
    have hsrc : ∀ e ∈ nodeEdges, e.source = nodeId := by
      intro e he
      have := List.of_mem_filter he
      simpa using this
    have hmem_nodeEdges : ∀ e ∈ edges, e.source = nodeId → e ∈ nodeEdges := by
      intro e he hs
      refine List.mem_filter.mpr ⟨he, ?_⟩
      simp [hs]
    have hnodupNE : (nodeEdges.map FeatureEdge.id).Nodup := by
      have hsl : List.Sublist (nodeEdges.map FeatureEdge.id)
          (edges.map FeatureEdge.id) :=
        (List.filter_sublist edges).map FeatureEdge.id
      exact hids.sublist hsl
    -- the id of an edge whose source is not the popped node differs from
    -- the id of every processed edge
    have hid_other : ∀ e ∈ edges, e.source ≠ nodeId →
        ∀ e' ∈ nodeEdges, e'.id ≠ e.id := by
      intro e he hs e' he'
      exact id_ne_of_src_ne hids (hsub e' he') he
        (by rw [hsrc e' he']; exact fun h => hs h.symm)
    -- entries of edges processed in this step were absent beforehand
    have hpersist_step : ∀ k b, mapLookup ve k = some b →
        mapLookup res.2.1 k = some b := by
      intro k b hb
      have hksome : (mapLookup ve k).isSome := by rw [hb]; rfl
      obtain ⟨e, he, rfl⟩ := hinv.keys_sub k hksome
      have hsrcne : e.source ≠ nodeId := by
        intro hs
        have := hinv.lookup_eq e he
        rw [hb] at this
        rw [hs] at this
        rw [hvis] at this
        simp at this
      rw [processEdges_lookup_other state nodeEdges reachable ve rest e.id
        (hid_other e he hsrcne)]
      exact hb
    have hinv' : BfsInv edges state res.2.2 (setAdd visited nodeId) res.1 res.2.1 := by
      refine ⟨?_, ?_, ?_, ?_, ?_, ?_, ?_⟩
      · -- queue_reach
        intro x hx
        rcases processEdges_queue_spec state nodeEdges reachable ve rest hx with hq | hr
        · exact processEdges_reachable_mono state nodeEdges reachable ve rest
            (hinv.queue_reach x (List.mem_cons_of_mem _ hq))
        · exact hr
      · -- visited_reach
        intro x hx
        rcases mem_setAdd.mp hx with hv | rfl
        · exact processEdges_reachable_mono state nodeEdges reachable ve rest
            (hinv.visited_reach x hv)
        · exact processEdges_reachable_mono state nodeEdges reachable ve rest
            hnodeId_reach
      · -- reach_cover
        intro x hx
        rcases processEdges_reachable_in_queue state nodeEdges reachable ve rest hx
          with hr | hq
        · rcases hinv.reach_cover x hr with hv | hq'
          · exact Or.inl (subset_setAdd hv)
          · rcases List.mem_cons.mp hq' with rfl | hq''
            · exact Or.inl self_mem_setAdd
            · exact Or.inr (processEdges_queue_mono state nodeEdges reachable ve rest hq'')
        · exact Or.inr hq
      · -- lookup_eq
        intro e he
        by_cases hs : e.source = nodeId
        · have heNE : e ∈ nodeEdges := hmem_nodeEdges e he hs
          rw [processEdges_lookup_mem state nodeEdges reachable ve rest nodeId
            hnodupNE hsrc hnodeId_reach e heNE]
          have : (setAdd visited nodeId).contains e.source = true := by
            rw [contains_eq_true_iff, hs]
            exact self_mem_setAdd
          rw [if_pos this]
        · rw [processEdges_lookup_other state nodeEdges reachable ve rest e.id
            (hid_other e he hs)]
          rw [hinv.lookup_eq e he]
          have : (setAdd visited nodeId).contains e.source = visited.contains e.source := by
            rw [contains_setAdd]
            have : (e.source == nodeId) = false := by simpa using hs
            rw [this, Bool.or_false]
          rw [this]
      · -- true_target
        intro e he hl
        by_cases hs : e.source = nodeId
        · have heNE : e ∈ nodeEdges := hmem_nodeEdges e he hs
          rw [processEdges_lookup_mem state nodeEdges reachable ve rest nodeId
            hnodupNE hsrc hnodeId_reach e heNE] at hl
          have hr : evaluateEdgeRules e state = true := Option.some.inj hl
          exact processEdges_valid_target state nodeEdges reachable ve rest nodeId
            hsrc hnodeId_reach e heNE hr
        · rw [processEdges_lookup_other state nodeEdges reachable ve rest e.id
            (hid_other e he hs)] at hl
          exact processEdges_reachable_mono state nodeEdges reachable ve rest
            (hinv.true_target e he hl)
      · -- keys_sub
        intro k hk
        rcases (processEdges_isSome state nodeEdges reachable ve rest k).mp hk
          with hs | ⟨e, he, rfl⟩
        · exact hinv.keys_sub k hs
        · exact ⟨e, hsub e he, rfl⟩
      · -- keys_nodup
        exact processEdges_keys_nodup state nodeEdges reachable ve rest hinv.keys_nodup
    have hout := ih hinv'
    refine ⟨?_, ?_, hout.lookup_final, ?_, hout.true_target,
      hout.keys_sub, hout.keys_nodup⟩
    · intro x hx
      exact hout.reach_mono x
        (processEdges_reachable_mono state nodeEdges reachable ve rest hx)
    · intro k b hb
      exact hout.persist k b (hpersist_step k b hb)
    · intro x hx
      rcases hout.reach_from x hx with hr | he
      · rcases processEdges_reachable_spec state nodeEdges reachable ve rest hr
          with hr' | ⟨e, he, rfl, hrules⟩
        · exact Or.inl hr'
        · refine Or.inr ⟨e, hsub e he, rfl, ?_⟩
          refine hout.persist e.id true ?_
          rw [processEdges_lookup_mem state nodeEdges reachable ve rest nodeId
            hnodupNE hsrc hnodeId_reach e he, hrules]
      · exact Or.inr he

/-! ### From the loop invariant to `evaluateFlow` itself -/

theorem mem_foldl_setAdd (l : List FeatureNode) (s0 : List String) (x : String) :
    x ∈ l.foldl (fun s n => setAdd s n.id) s0 ↔ x ∈ s0 ∨ ∃ n ∈ l, n.id = x := by
  induction l generalizing s0 with
  | nil => simp
  | cons n rest ih =>
    rw [List.foldl_cons, ih]
    constructor
    · rintro (hs | ⟨n', hn', rfl⟩)
      · rcases mem_setAdd.mp hs with hs | rfl
        · exact Or.inl hs
        · exact Or.inr ⟨n, List.mem_cons_self _ _, rfl⟩
      · exact Or.inr ⟨n', List.mem_cons_of_mem _ hn', rfl⟩
    · rintro (hs | ⟨n', hn', rfl⟩)
      · exact Or.inl (subset_setAdd hs)
      · rcases List.mem_cons.mp hn' with rfl | hn''
        · exact Or.inl self_mem_setAdd
        · exact Or.inr ⟨n', hn'', rfl⟩

theorem mem_rootNodes_iff (nodes : List FeatureNode) (edges : List FeatureEdge)
    (n : FeatureNode) :
    n ∈ rootNodes nodes edges ↔ n ∈ nodes ∧ ∀ e ∈ edges, e.target ≠ n.id := by
  unfold rootNodes
  rw [List.mem_filter]
  constructor
  · rintro ⟨hn, hf⟩
    refine ⟨hn, ?_⟩
    intro e he heq
    have : edges.any (fun e => e.target == n.id) = true :=
      List.any_eq_true.mpr ⟨e, he, by simp [heq]⟩
    rw [this] at hf
    simp at hf
  · rintro ⟨hn, hf⟩
    refine ⟨hn, ?_⟩
    have : edges.any (fun e => e.target == n.id) = false := by
      rw [List.any_eq_false]
      intro e he
      simpa using hf e he
    rw [this]
    rfl

/-- The initial state of the traversal satisfies the loop invariant. -/
theorem bfsInv_init (nodes : List FeatureNode) (edges : List FeatureEdge)
    (state : SimulationState) :
    BfsInv edges state ((rootNodes nodes edges).map (·.id)) []
      ((rootNodes nodes edges).foldl (fun s n => setAdd s n.id) []) [] := by
  refine ⟨?_, ?_, ?_, ?_, ?_, ?_, ?_⟩
  · intro x hx
    rw [mem_foldl_setAdd]
    rcases List.mem_map.mp hx with ⟨n, hn, rfl⟩
    exact Or.inr ⟨n, hn, rfl⟩
  · intro x hx; cases hx
  · intro x hx
    rw [mem_foldl_setAdd] at hx
    rcases hx with hx | ⟨n, hn, rfl⟩
    · cases hx
    · exact Or.inr (List.mem_map.mpr ⟨n, hn, rfl⟩)
  · intro e _
    simp [mapLookup]
  · intro e _ h
    simp [mapLookup] at h
  · intro k h
    simp [mapLookup] at h
  · simp

theorem mapLookup_mapSet_isSome (m : List (String × Bool)) (k k' : String)
    (v : Bool) :
    (mapLookup (mapSet m k v) k').isSome ↔ (mapLookup m k').isSome ∨ k' = k := by
  by_cases h : k' = k
  · subst h
    simp [mapLookup_mapSet_self]
  · rw [mapLookup_mapSet_ne _ _ h]
    simp [h]

theorem sweepEdges_cons (e : FeatureEdge) (es : List FeatureEdge)
    (m : List (String × Bool)) :
    sweepEdges (e :: es) m =
      sweepEdges es (if (mapLookup m e.id).isSome then m else mapSet m e.id false) := by
  rw [sweepEdges, sweepEdges, List.foldl_cons]

theorem sweepEdges_persist (es : List FeatureEdge) (m : List (String × Bool))
    (k : String) (b : Bool) (h : mapLookup m k = some b) :
    mapLookup (sweepEdges es m) k = some b := by
  induction es generalizing m with
  | nil => simpa [sweepEdges] using h
  | cons e rest ih =>
    rw [sweepEdges_cons]
    by_cases hs : (mapLookup m e.id).isSome
    · rw [if_pos hs]
      exact ih m h
    · have hk : k ≠ e.id := by
        rintro rfl
        rw [h] at hs
        simp at hs
      rw [if_neg hs]
      exact ih _ (by rw [mapLookup_mapSet_ne _ _ hk]; exact h)

theorem sweepEdges_isSome_mono (es : List FeatureEdge) (m : List (String × Bool))
    (k : String) (h : (mapLookup m k).isSome) :
    (mapLookup (sweepEdges es m) k).isSome := by
  obtain ⟨b, hb⟩ := Option.isSome_iff_exists.mp h
  rw [sweepEdges_persist es m k b hb]
  rfl

theorem sweepEdges_mem (es : List FeatureEdge) (m : List (String × Bool)) :
    ∀ e ∈ es, (mapLookup (sweepEdges es m) e.id).isSome := by
  induction es generalizing m with
  | nil => intro e he; cases he
  | cons e0 rest ih =>
    intro e he
    rw [sweepEdges_cons]
    rcases List.mem_cons.mp he with rfl | he'
    · by_cases hs : (mapLookup m e.id).isSome
      · rw [if_pos hs]
        exact sweepEdges_isSome_mono rest m e.id hs
      · rw [if_neg hs]
        refine sweepEdges_isSome_mono rest _ e.id ?_
        rw [mapLookup_mapSet_self]
        rfl
    · split
      · exact ih m e he'
      · exact ih _ e he'

theorem sweepEdges_true (es : List FeatureEdge) (m : List (String × Bool))
    (k : String) (h : mapLookup (sweepEdges es m) k = some true) :
    mapLookup m k = some true := by
  induction es generalizing m with
  | nil => simpa [sweepEdges] using h
  | cons e rest ih =>
    rw [sweepEdges_cons] at h
    by_cases hs : (mapLookup m e.id).isSome
    · rw [if_pos hs] at h
      exact ih m h
    · rw [if_neg hs] at h
      have h' := ih _ h
      by_cases hk : k = e.id
      · subst hk
        rw [mapLookup_mapSet_self] at h'
        cases h'
      · rw [mapLookup_mapSet_ne _ _ hk] at h'
        exact h'

theorem sweepEdges_keys_sub (es : List FeatureEdge) (m : List (String × Bool))
    (k : String) (h : (mapLookup (sweepEdges es m) k).isSome) :
    (mapLookup m k).isSome ∨ ∃ e ∈ es, e.id = k := by
  induction es generalizing m with
  | nil => exact Or.inl (by simpa [sweepEdges] using h)
  | cons e rest ih =>
    rw [sweepEdges_cons] at h
    by_cases hs : (mapLookup m e.id).isSome
    · rw [if_pos hs] at h
      rcases ih m h with h' | ⟨e', he', rfl⟩
      · exact Or.inl h'
      · exact Or.inr ⟨e', List.mem_cons_of_mem _ he', rfl⟩
    · rw [if_neg hs] at h
      rcases ih _ h with h' | ⟨e', he', rfl⟩
      · rcases (mapLookup_mapSet_isSome m e.id k false).mp h' with h'' | rfl
        · exact Or.inl h''
        · exact Or.inr ⟨e, List.mem_cons_self _ _, rfl⟩
      · exact Or.inr ⟨e', List.mem_cons_of_mem _ he', rfl⟩

theorem sweepEdges_keys_nodup (es : List FeatureEdge) (m : List (String × Bool))
    (h : (m.map Prod.fst).Nodup) :
    ((sweepEdges es m).map Prod.fst).Nodup := by
  induction es generalizing m with
  | nil => simpa [sweepEdges] using h
  | cons e rest ih =>
    rw [sweepEdges_cons]
    split
    · exact ih m h
    · exact ih _ (mapSet_keys_nodup _ _ _ h)

/-- Full characterisation of `evaluateFlow` for edge lists with unique
edge ids: the validity map is total over the edges, duplicate-free,
mentions only edge ids, an entry is `true` exactly when the edge's
source is reachable and its rules pass, and the reachable set is
exactly the root ids together with the targets of `true` edges. -/
theorem evaluateFlow_spec (nodes : List FeatureNode) (edges : List FeatureEdge)
    (state : SimulationState)
    (hids : (edges.map FeatureEdge.id).Nodup) :
    (∀ e ∈ edges,
      (mapLookup (evaluateFlow nodes edges state).validEdges e.id).isSome) ∧
    (∀ e ∈ edges,
      (mapLookup (evaluateFlow nodes edges state).validEdges e.id = some true ↔
        e.source ∈ (evaluateFlow nodes edges state).reachableNodes ∧
          evaluateEdgeRules e state = true)) ∧
    (((evaluateFlow nodes edges state).validEdges.map Prod.fst).Nodup) ∧
    (∀ k, k ∈ (evaluateFlow nodes edges state).validEdges.map Prod.fst →
      ∃ e ∈ edges, e.id = k) ∧
    (∀ x, x ∈ (evaluateFlow nodes edges state).reachableNodes ↔
      (∃ n ∈ nodes, n.id = x ∧ ∀ e ∈ edges, e.target ≠ n.id) ∨
      ∃ e ∈ edges, e.target = x ∧
        mapLookup (evaluateFlow nodes edges state).validEdges e.id = some true) := by
  have hout := bfsLoop_spec edges state hids
    ((rootNodes nodes edges).map (·.id)) []
    ((rootNodes nodes edges).foldl (fun s n => setAdd s n.id) []) []
    (bfsInv_init nodes edges state)
  set res := bfsLoop edges state ((rootNodes nodes edges).map (·.id)) []
    ((rootNodes nodes edges).foldl (fun s n => setAdd s n.id) []) [] with hresdef
  have hR : (evaluateFlow nodes edges state).reachableNodes = res.1 := rfl
  have hV : (evaluateFlow nodes edges state).validEdges = sweepEdges edges res.2 := rfl
  have hroot_mem : ∀ x,
      x ∈ (rootNodes nodes edges).foldl (fun s n => setAdd s n.id) [] ↔
        ∃ n ∈ nodes, n.id = x ∧ ∀ e ∈ edges, e.target ≠ n.id := by
    intro x
    rw [mem_foldl_setAdd]
    constructor
    · rintro (h | ⟨n, hn, rfl⟩)
      · cases h
      · obtain ⟨hn', hroot⟩ := (mem_rootNodes_iff nodes edges n).mp hn
        exact ⟨n, hn', rfl, hroot⟩
    · rintro ⟨n, hn, rfl, hroot⟩
      exact Or.inr ⟨n, (mem_rootNodes_iff nodes edges n).mpr ⟨hn, hroot⟩, rfl⟩
  refine ⟨?_, ?_, ?_, ?_, ?_⟩
  · intro e he
    rw [hV]
    exact sweepEdges_mem edges res.2 e he
  · intro e he
    rw [hV, hR]
    constructor
    · intro h
      have hpre : mapLookup res.2 e.id = some true := sweepEdges_true _ _ _ h
      have := hout.lookup_final e he
      rw [hpre] at this
      by_cases hsrc : e.source ∈ res.1
      · rw [if_pos hsrc] at this
        exact ⟨hsrc, (Option.some.inj this).symm⟩
      · rw [if_neg hsrc] at this
        cases this
    · rintro ⟨hsrc, hrules⟩
      have := hout.lookup_final e he
      rw [if_pos hsrc, hrules] at this
      exact sweepEdges_persist _ _ _ _ this
  · rw [hV]
    exact sweepEdges_keys_nodup edges res.2 hout.keys_nodup
  · intro k hk
    rw [hV] at hk
    have : (mapLookup (sweepEdges edges res.2) k).isSome :=
      (mapLookup_isSome_iff _ k).mpr hk
    rcases sweepEdges_keys_sub edges res.2 k this with h | h
    · exact hout.keys_sub k h
    · obtain ⟨e, he, rfl⟩ := h
      exact ⟨e, he, rfl⟩
  · intro x
    rw [hR, hV]
    constructor
    · intro hx
      rcases hout.reach_from x hx with hr | ⟨e, he, rfl, hl⟩
      · exact Or.inl ((hroot_mem x).mp hr)
      · exact Or.inr ⟨e, he, rfl, sweepEdges_persist _ _ _ _ hl⟩
    · rintro (hr | ⟨e, he, rfl, hl⟩)
      · exact hout.reach_mono x ((hroot_mem x).mpr hr)
      · exact hout.true_target e he (sweepEdges_true _ _ _ hl)

/-! ### The backward traversal of the ancestor trace -/

/-- Backward connectivity: `BackReach edges focus x` holds when some
chain of edges leads from `x` forward to `focus` (so `x` is `focus`
itself or an ancestor of it through raw connectivity, ignoring rules
and context). -/
inductive BackReach (edges : List FeatureEdge) (focus : String) : String → Prop where
  | refl : BackReach edges focus focus
  | step {e : FeatureEdge} : e ∈ edges → BackReach edges focus e.target →
      BackReach edges focus e.source

theorem traceProcess_cons_of_mem {edge : FeatureEdge} {rest : List FeatureEdge}
    {hNodes hEdges queue : List String}
    (h : hNodes.contains edge.source = true) :
    traceProcess (edge :: rest) hNodes hEdges queue =
      traceProcess rest hNodes (setAdd hEdges edge.id) queue := by
  simp only [traceProcess, h, if_true]

theorem traceProcess_cons_of_not_mem {edge : FeatureEdge} {rest : List FeatureEdge}
    {hNodes hEdges queue : List String}
    (h : hNodes.contains edge.source = false) :
    traceProcess (edge :: rest) hNodes hEdges queue =
      traceProcess rest (setAdd hNodes edge.source) (setAdd hEdges edge.id)
        (queue ++ [edge.source]) := by
  simp only [traceProcess, h, Bool.false_eq_true, if_false]

theorem traceProcess_nodes_mono (incoming : List FeatureEdge)
    (hNodes hEdges queue : List String) {x : String} (hx : x ∈ hNodes) :
    x ∈ (traceProcess incoming hNodes hEdges queue).1 := by
  induction incoming generalizing hNodes hEdges queue with
  | nil => simpa [traceProcess] using hx
  | cons edge rest ih =>
    cases h : hNodes.contains edge.source with
    | true => rw [traceProcess_cons_of_mem h]; exact ih _ _ _ hx
    | false => rw [traceProcess_cons_of_not_mem h]; exact ih _ _ _ (subset_setAdd hx)

theorem traceProcess_edges_mono (incoming : List FeatureEdge)
    (hNodes hEdges queue : List String) {i : String} (hi : i ∈ hEdges) :
    i ∈ (traceProcess incoming hNodes hEdges queue).2.1 := by
  induction incoming generalizing hNodes hEdges queue with
  | nil => simpa [traceProcess] using hi
  | cons edge rest ih =>
    cases h : hNodes.contains edge.source with
    | true => rw [traceProcess_cons_of_mem h]; exact ih _ _ _ (subset_setAdd hi)
    | false => rw [traceProcess_cons_of_not_mem h]; exact ih _ _ _ (subset_setAdd hi)

theorem traceProcess_queue_mono (incoming : List FeatureEdge)
    (hNodes hEdges queue : List String) {x : String} (hx : x ∈ queue) :
    x ∈ (traceProcess incoming hNodes hEdges queue).2.2 := by
  induction incoming generalizing hNodes hEdges queue with
  | nil => simpa [traceProcess] using hx
  | cons edge rest ih =>
    cases h : hNodes.contains edge.source with
    | true => rw [traceProcess_cons_of_mem h]; exact ih _ _ _ hx
    | false =>
      rw [traceProcess_cons_of_not_mem h]
      exact ih _ _ _ (List.mem_append.mpr (Or.inl hx))

theorem traceProcess_nodes_spec (incoming : List FeatureEdge)
    (hNodes hEdges queue : List String) {x : String}
    (hx : x ∈ (traceProcess incoming hNodes hEdges queue).1) :
    x ∈ hNodes ∨ ∃ e ∈ incoming, e.source = x := by
  induction incoming generalizing hNodes hEdges queue with
  | nil => simp only [traceProcess] at hx; exact Or.inl hx
  | cons edge rest ih =>
    cases h : hNodes.contains edge.source with
    | true =>
      rw [traceProcess_cons_of_mem h] at hx
      rcases ih _ _ _ hx with hx' | ⟨e, he, rfl⟩
      · exact Or.inl hx'
      · exact Or.inr ⟨e, List.mem_cons_of_mem _ he, rfl⟩
    | false =>
      rw [traceProcess_cons_of_not_mem h] at hx
      rcases ih _ _ _ hx with hx' | ⟨e, he, rfl⟩
      · rcases mem_setAdd.mp hx' with hx'' | rfl
        · exact Or.inl hx''
        · exact Or.inr ⟨edge, List.mem_cons_self _ _, rfl⟩
      · exact Or.inr ⟨e, List.mem_cons_of_mem _ he, rfl⟩

theorem traceProcess_edges_spec (incoming : List FeatureEdge)
    (hNodes hEdges queue : List String) {i : String}
    (hi : i ∈ (traceProcess incoming hNodes hEdges queue).2.1) :
    i ∈ hEdges ∨ ∃ e ∈ incoming, e.id = i := by
  induction incoming generalizing hNodes hEdges queue with
  | nil => simp only [traceProcess] at hi; exact Or.inl hi
  | cons edge rest ih =>
    have step : ∀ (hN : List String) (q : List String),
        i ∈ (traceProcess rest hN (setAdd hEdges edge.id) q).2.1 →
          i ∈ hEdges ∨ ∃ e ∈ edge :: rest, e.id = i := by
      intro hN q hq
      rcases ih hN (setAdd hEdges edge.id) q hq with hi' | ⟨e, he, rfl⟩
      · rcases mem_setAdd.mp hi' with hi'' | rfl
        · exact Or.inl hi''
        · exact Or.inr ⟨edge, List.mem_cons_self _ _, rfl⟩
      · exact Or.inr ⟨e, List.mem_cons_of_mem _ he, rfl⟩
    cases h : hNodes.contains edge.source with
    | true =>
      rw [traceProcess_cons_of_mem h] at hi
      exact step _ _ hi
    | false =>
      rw [traceProcess_cons_of_not_mem h] at hi
      exact step _ _ hi

theorem traceProcess_edges_complete (incoming : List FeatureEdge)
    (hNodes hEdges queue : List String) :
    ∀ e ∈ incoming, e.id ∈ (traceProcess incoming hNodes hEdges queue).2.1 := by
  induction incoming generalizing hNodes hEdges queue with
  | nil => intro e he; cases he
  | cons edge rest ih =>
    intro e he
    rcases List.mem_cons.mp he with rfl | he'
    · cases h : hNodes.contains e.source with
      | true =>
        rw [traceProcess_cons_of_mem h]
        exact traceProcess_edges_mono rest _ _ _ self_mem_setAdd
      | false =>
        rw [traceProcess_cons_of_not_mem h]
        exact traceProcess_edges_mono rest _ _ _ self_mem_setAdd
    · cases h : hNodes.contains edge.source with
      | true => rw [traceProcess_cons_of_mem h]; exact ih _ _ _ e he'
      | false => rw [traceProcess_cons_of_not_mem h]; exact ih _ _ _ e he'

theorem traceProcess_sources_in (incoming : List FeatureEdge)
    (hNodes hEdges queue : List String) :
    ∀ e ∈ incoming, e.source ∈ (traceProcess incoming hNodes hEdges queue).1 := by
  induction incoming generalizing hNodes hEdges queue with
  | nil => intro e he; cases he
  | cons edge rest ih =>
    intro e he
    rcases List.mem_cons.mp he with rfl | he'
    · cases h : hNodes.contains e.source with
      | true =>
        rw [traceProcess_cons_of_mem h]
        exact traceProcess_nodes_mono rest _ _ _ (contains_eq_true_iff.mp h)
      | false =>
        rw [traceProcess_cons_of_not_mem h]
        exact traceProcess_nodes_mono rest _ _ _ self_mem_setAdd
    · cases h : hNodes.contains edge.source with
      | true => rw [traceProcess_cons_of_mem h]; exact ih _ _ _ e he'
      | false => rw [traceProcess_cons_of_not_mem h]; exact ih _ _ _ e he'

theorem traceProcess_queue_spec (incoming : List FeatureEdge)
    (hNodes hEdges queue : List String) {x : String}
    (hx : x ∈ (traceProcess incoming hNodes hEdges queue).2.2) :
    x ∈ queue ∨ x ∈ (traceProcess incoming hNodes hEdges queue).1 := by
  induction incoming generalizing hNodes hEdges queue with
  | nil => simp only [traceProcess] at hx ⊢; exact Or.inl hx
  | cons edge rest ih =>
    cases h : hNodes.contains edge.source with
    | true =>
      rw [traceProcess_cons_of_mem h] at hx ⊢
      exact ih _ _ _ hx
    | false =>
      rw [traceProcess_cons_of_not_mem h] at hx ⊢
      rcases ih _ _ _ hx with hq | hr
      · rcases List.mem_append.mp hq with hq' | hq'
        · exact Or.inl hq'
        · simp only [List.mem_singleton] at hq'
          subst hq'
          exact Or.inr (traceProcess_nodes_mono rest _ _ _ self_mem_setAdd)
      · exact Or.inr hr

theorem traceProcess_new_in_queue (incoming : List FeatureEdge)
    (hNodes hEdges queue : List String) {x : String}
    (hx : x ∈ (traceProcess incoming hNodes hEdges queue).1) :
    x ∈ hNodes ∨ x ∈ (traceProcess incoming hNodes hEdges queue).2.2 := by
  induction incoming generalizing hNodes hEdges queue with
  | nil => simp only [traceProcess] at hx ⊢; exact Or.inl hx
  | cons edge rest ih =>
    cases h : hNodes.contains edge.source with
    | true =>
      rw [traceProcess_cons_of_mem h] at hx ⊢
      exact ih _ _ _ hx
    | false =>
      rw [traceProcess_cons_of_not_mem h] at hx ⊢
      rcases ih _ _ _ hx with hn | hq
      · rcases mem_setAdd.mp hn with hn' | rfl
        · exact Or.inl hn'
        · exact Or.inr (traceProcess_queue_mono rest _ _ _
            (List.mem_append.mpr (Or.inr (List.mem_singleton.mpr rfl))))
      · exact Or.inr hq

/-- Invariant of the backward traversal of the ancestor trace. -/
structure TraceInv (edges : List FeatureEdge) (focus : String)
    (queue hNodes hEdges : List String) : Prop where
  queue_hn : ∀ x ∈ queue, x ∈ hNodes
  sound_nodes : ∀ x ∈ hNodes, BackReach edges focus x
  sound_edges : ∀ i ∈ hEdges, ∃ e ∈ edges, e.id = i ∧ e.target ∈ hNodes
  cover : ∀ x ∈ hNodes, x ∈ queue ∨
      ∀ e ∈ edges, e.target = x → e.id ∈ hEdges ∧ e.source ∈ hNodes

/-- Guarantees of the finished backward traversal. -/
structure TraceOut (edges : List FeatureEdge) (focus : String)
    (hNodes hEdges HN HE : List String) : Prop where
  mono_n : ∀ x ∈ hNodes, x ∈ HN
  mono_e : ∀ i ∈ hEdges, i ∈ HE
  sound_nodes : ∀ x ∈ HN, BackReach edges focus x
  sound_edges : ∀ i ∈ HE, ∃ e ∈ edges, e.id = i ∧ e.target ∈ HN
  closed : ∀ x ∈ HN, ∀ e ∈ edges, e.target = x → e.id ∈ HE ∧ e.source ∈ HN

theorem traceLoop_nil (edges : List FeatureEdge) (hNodes hEdges : List String) :
    traceLoop edges [] hNodes hEdges = (hNodes, hEdges) := by
  simp [traceLoop]

theorem traceLoop_cons (edges : List FeatureEdge) (nodeId : String)
    (rest hNodes hEdges : List String) :
    traceLoop edges (nodeId :: rest) hNodes hEdges =
      traceLoop edges
        (traceProcess (edges.filter fun e => e.target == nodeId)
          hNodes hEdges rest).2.2
        (traceProcess (edges.filter fun e => e.target == nodeId)
          hNodes hEdges rest).1
        (traceProcess (edges.filter fun e => e.target == nodeId)
          hNodes hEdges rest).2.1 := by
  rw [traceLoop]

theorem traceLoop_spec (edges : List FeatureEdge) (focus : String)
    (queue hNodes hEdges : List String)
    (hinv : TraceInv edges focus queue hNodes hEdges) :
    TraceOut edges focus hNodes hEdges
      (traceLoop edges queue hNodes hEdges).1
      (traceLoop edges queue hNodes hEdges).2 := by
  induction queue, hNodes, hEdges using traceLoop.induct edges with
  | case1 hNodes hEdges =>
    rw [traceLoop_nil]
    refine ⟨fun x hx => hx, fun i hi => hi, hinv.sound_nodes, hinv.sound_edges, ?_⟩
    intro x hx e he ht
    rcases hinv.cover x hx with hq | hc
    · cases hq
    · exact hc e he ht
  | case2 hNodes hEdges nodeId rest incomingStep resStep ih =>
    rw [traceLoop_cons]
    set incoming := edges.filter fun e => e.target == nodeId with hinc
    set res := traceProcess incoming hNodes hEdges rest with hresd
    have hsubI : ∀ e ∈ incoming, e ∈ edges := fun e he => List.mem_of_mem_filter he
    have htgtI : ∀ e ∈ incoming, e.target = nodeId := by
      intro e he
      have := List.of_mem_filter he
      simpa using this
    have hmemI : ∀ e ∈ edges, e.target = nodeId → e ∈ incoming := by
      intro e he ht
      refine List.mem_filter.mpr ⟨he, ?_⟩
      simp [ht]
    have hnodeId_hn : nodeId ∈ hNodes := hinv.queue_hn nodeId (List.mem_cons_self _ _)
    have hinv' : TraceInv edges focus res.2.2 res.1 res.2.1 := by
      refine ⟨?_, ?_, ?_, ?_⟩
      · intro x hx
        rcases traceProcess_queue_spec incoming hNodes hEdges rest hx with hq | hr
        · exact traceProcess_nodes_mono incoming hNodes hEdges rest
            (hinv.queue_hn x (List.mem_cons_of_mem _ hq))
        · exact hr
      · intro x hx
        rcases traceProcess_nodes_spec incoming hNodes hEdges rest hx with hn | ⟨e, he, rfl⟩
        · exact hinv.sound_nodes x hn
        · exact BackReach.step (hsubI e he)
            ((htgtI e he) ▸ hinv.sound_nodes nodeId hnodeId_hn)
      · intro i hi
        rcases traceProcess_edges_spec incoming hNodes hEdges rest hi with hi' | ⟨e, he, rfl⟩
        · obtain ⟨e, he, rfl, ht⟩ := hinv.sound_edges i hi'
          exact ⟨e, he, rfl, traceProcess_nodes_mono incoming hNodes hEdges rest ht⟩
        · refine ⟨e, hsubI e he, rfl, ?_⟩
          rw [htgtI e he]
          exact traceProcess_nodes_mono incoming hNodes hEdges rest hnodeId_hn
      · intro x hx
        by_cases hxn : x ∈ hNodes
        · rcases hinv.cover x hxn with hq | hc
          · rcases List.mem_cons.mp hq with rfl | hq'
            · refine Or.inr ?_
              intro e he ht
              have heI : e ∈ incoming := hmemI e he ht
              exact ⟨traceProcess_edges_complete incoming hNodes hEdges rest e heI,
                traceProcess_sources_in incoming hNodes hEdges rest e heI⟩
            · exact Or.inl (traceProcess_queue_mono incoming hNodes hEdges rest hq')
          · refine Or.inr ?_
            intro e he ht
            obtain ⟨h1, h2⟩ := hc e he ht
            exact ⟨traceProcess_edges_mono incoming hNodes hEdges rest h1,
              traceProcess_nodes_mono incoming hNodes hEdges rest h2⟩
        · rcases traceProcess_new_in_queue incoming hNodes hEdges rest hx with hn | hq
          · exact absurd hn hxn
          · exact Or.inl hq
    have hout := ih hinv'
    exact ⟨fun x hx => hout.mono_n x
        (traceProcess_nodes_mono incoming hNodes hEdges rest hx),
      fun i hi => hout.mono_e i
        (traceProcess_edges_mono incoming hNodes hEdges rest hi),
      hout.sound_nodes, hout.sound_edges, hout.closed⟩

/-- Full characterisation of the ancestor trace: the highlighted nodes
are exactly the backward-connectivity closure of the hovered node and
the highlighted edges are exactly the edges whose target lies in that
closure. -/
theorem traceHighlight_spec (focus : String) (edges : List FeatureEdge) :
    (∀ x, x ∈ (traceHighlight focus edges).1 ↔ BackReach edges focus x) ∧
    (∀ i, i ∈ (traceHighlight focus edges).2 ↔
      ∃ e ∈ edges, e.id = i ∧ BackReach edges focus e.target) := by
  have hinv : TraceInv edges focus [focus] [focus] [] := by
    refine ⟨?_, ?_, ?_, ?_⟩
    · intro x hx; exact hx
    · intro x hx
      rcases List.mem_singleton.mp hx with rfl
      exact BackReach.refl
    · intro i hi; cases hi
    · intro x hx
      exact Or.inl hx
  have hout := traceLoop_spec edges focus [focus] [focus] [] hinv
  have hN : (traceHighlight focus edges).1 = (traceLoop edges [focus] [focus] []).1 := rfl
  have hE : (traceHighlight focus edges).2 = (traceLoop edges [focus] [focus] []).2 := rfl
  have hnodes : ∀ x, x ∈ (traceLoop edges [focus] [focus] []).1 ↔
      BackReach edges focus x := by
    intro x
    constructor
    · exact hout.sound_nodes x
    · intro hbr
      induction hbr with
      | refl => exact hout.mono_n focus (List.mem_singleton.mpr rfl)
      | step he _ ihx => exact (hout.closed _ ihx _ he rfl).2
  constructor
  · intro x
    rw [hN]
    exact hnodes x
  · intro i
    rw [hE]
    constructor
    · intro hi
      obtain ⟨e, he, rfl, ht⟩ := hout.sound_edges i hi
      exact ⟨e, he, rfl, hout.sound_nodes _ ht⟩
    · rintro ⟨e, he, rfl, hbr⟩
      have htn : e.target ∈ (traceLoop edges [focus] [focus] []).1 :=
        (hnodes e.target).mpr hbr
      exact (hout.closed _ htn _ he rfl).1

/-! ### Characterising `discoverConditions` -/

/-- All rules of an edge list, in edge order (the iteration order of the
nested `for` loops of `discoverConditions`). -/
def allRules : List FeatureEdge → List EdgeRule
  | [] => []
  | e :: rest => getRules e ++ allRules rest

theorem mem_allRules {edges : List FeatureEdge} {r : EdgeRule} :
    r ∈ allRules edges ↔ ∃ e ∈ edges, r ∈ getRules e := by
  induction edges with
  | nil => simp [allRules]
  | cons e rest ih =>
    simp only [allRules, List.mem_append, ih, List.mem_cons]
    constructor
    · rintro (h | ⟨e', he', hr⟩)
      · exact ⟨e, Or.inl rfl, h⟩
      · exact ⟨e', Or.inr he', hr⟩
    · rintro ⟨e', (rfl | he'), hr⟩
      · exact Or.inl hr
      · exact Or.inr ⟨e', he', hr⟩

theorem conditionMap_eq_foldl (edges : List FeatureEdge) :
    conditionMap edges =
      (allRules edges).foldl (fun m' r => condInsert m' r.condition r.value) [] := by
  suffices h : ∀ m : List (String × List Value),
      edges.foldl
        (fun m e => (getRules e).foldl (fun m' r => condInsert m' r.condition r.value) m) m =
      (allRules edges).foldl (fun m' r => condInsert m' r.condition r.value) m from
    h []
  induction edges with
  | nil => intro m; simp [allRules]
  | cons e rest ih =>
    intro m
    rw [List.foldl_cons, ih, allRules, List.foldl_append]

/-- Lookup in the per-condition value map. -/
def condLookup (m : List (String × List Value)) (c : String) :
    Option (List Value) :=
  match m with
  | [] => none
  | (k, vs) :: rest => if k = c then some vs else condLookup rest c

theorem mem_setAddValue {vs : List Value} {v w : Value} :
    w ∈ setAddValue vs v ↔ w ∈ vs ∨ w = v := by
  unfold setAddValue
  split
  · rename_i h
    constructor
    · exact Or.inl
    · rintro (hw | rfl)
      · exact hw
      · simpa using h
  · simp [List.mem_append]

theorem setAddValue_nodup {vs : List Value} {v : Value} (h : vs.Nodup) :
    (setAddValue vs v).Nodup := by
  unfold setAddValue
  split
  · exact h
  · rename_i hv
    refine List.Nodup.append h (List.nodup_singleton v) ?_
    intro a ha hb
    simp only [List.mem_singleton] at hb
    subst hb
    exact hv (by simpa using ha)

theorem condLookup_condInsert_self (m : List (String × List Value))
    (c : String) (v : Value) :
    condLookup (condInsert m c v) c =
      some (setAddValue ((condLookup m c).getD []) v) := by
  induction m with
  | nil => simp [condInsert, condLookup, setAddValue]
  | cons p rest ih =>
    obtain ⟨k, vs⟩ := p
    by_cases h : k = c
    · simp [condInsert, condLookup, h]
    · simp [condInsert, condLookup, h, ih]

theorem condLookup_condInsert_ne (m : List (String × List Value))
    {c c' : String} (v : Value) (h : c' ≠ c) :
    condLookup (condInsert m c v) c' = condLookup m c' := by
  induction m with
  | nil => simp [condInsert, condLookup, Ne.symm h]
  | cons p rest ih =>
    obtain ⟨k, vs⟩ := p
    by_cases h0 : k = c
    · subst h0
      simp [condInsert, condLookup, Ne.symm h]
    · by_cases h1 : k = c'
      · simp [condInsert, condLookup, h0, h1, h]
      · simp [condInsert, condLookup, h0, h1, ih]

theorem condLookup_isSome_iff (m : List (String × List Value)) (c : String) :
    (condLookup m c).isSome ↔ c ∈ m.map Prod.fst := by
  induction m with
  | nil => simp [condLookup]
  | cons p rest ih =>
    obtain ⟨k, vs⟩ := p
    by_cases h : k = c
    · simp [condLookup, h]
    · simp [condLookup, h, ih, Ne.symm h]

theorem condInsert_keys_of_mem (m : List (String × List Value)) (c : String)
    (v : Value) (h : c ∈ m.map Prod.fst) :
    (condInsert m c v).map Prod.fst = m.map Prod.fst := by
  induction m with
  | nil => simp at h
  | cons p rest ih =>
    obtain ⟨k, vs⟩ := p
    by_cases h0 : k = c
    · simp [condInsert, h0]
    · have hc : c ∈ rest.map Prod.fst := by
        simp only [List.map_cons, List.mem_cons] at h
        rcases h with h | h
        · exact absurd h.symm h0
        · exact h
      simp [condInsert, h0, ih hc]

theorem condInsert_keys_of_not_mem (m : List (String × List Value)) (c : String)
    (v : Value) (h : c ∉ m.map Prod.fst) :
    (condInsert m c v).map Prod.fst = m.map Prod.fst ++ [c] := by
  induction m with
  | nil => simp [condInsert]
  | cons p rest ih =>
    obtain ⟨k, vs⟩ := p
    simp only [List.map_cons, List.mem_cons] at h
    push_neg at h
    simp [condInsert, Ne.symm h.1, ih h.2]

theorem condInsert_keys_nodup (m : List (String × List Value)) (c : String)
    (v : Value) (h : (m.map Prod.fst).Nodup) :
    ((condInsert m c v).map Prod.fst).Nodup := by
  by_cases hc : c ∈ m.map Prod.fst
  · rw [condInsert_keys_of_mem m c v hc]; exact h
  · rw [condInsert_keys_of_not_mem m c v hc]
    refine List.Nodup.append h (List.nodup_singleton c) ?_
    intro a ha hb
    simp only [List.mem_singleton] at hb
    subst hb
    exact hc ha

theorem condInsert_values_nodup (m : List (String × List Value)) (c : String)
    (v : Value) (h : ∀ p ∈ m, List.Nodup p.2) :
    ∀ p ∈ condInsert m c v, List.Nodup p.2 := by
  induction m with
  | nil =>
    intro p hp
    simp only [condInsert, List.mem_singleton] at hp
    subst hp
    exact List.nodup_singleton v
  | cons q rest ih =>
    obtain ⟨k, vs⟩ := q
    intro p hp
    by_cases h0 : k = c
    · simp only [condInsert, h0, if_true] at hp
      rcases List.mem_cons.mp hp with rfl | hp'
      · exact setAddValue_nodup (h (k, vs) (List.mem_cons_self _ _))
      · exact h p (List.mem_cons_of_mem _ hp')
    · simp only [condInsert, h0, if_false] at hp
      rcases List.mem_cons.mp hp with rfl | hp'
      · exact h (k, vs) (List.mem_cons_self _ _)
      · exact ih (fun q hq => h q (List.mem_cons_of_mem _ hq)) p hp'

theorem foldRules_mem_value (rs : List EdgeRule) (m : List (String × List Value))
    (c : String) (v : Value) :
    (∃ vs, condLookup
        (rs.foldl (fun m' r => condInsert m' r.condition r.value) m) c =
          some vs ∧ v ∈ vs) ↔
      (∃ vs, condLookup m c = some vs ∧ v ∈ vs) ∨
        ∃ r ∈ rs, r.condition = c ∧ r.value = v := by
  induction rs generalizing m with
  | nil => simp
  | cons r rest ih =>
    rw [List.foldl_cons, ih]
    have hbase : (∃ vs, condLookup (condInsert m r.condition r.value) c =
        some vs ∧ v ∈ vs) ↔
        (∃ vs, condLookup m c = some vs ∧ v ∈ vs) ∨
          (r.condition = c ∧ r.value = v) := by
      by_cases hc : c = r.condition
      · subst hc
        rw [condLookup_condInsert_self]
        constructor
        · rintro ⟨vs, hvs, hv⟩
          obtain rfl := Option.some.inj hvs
          rcases mem_setAddValue.mp hv with hv' | rfl
          · left
            cases hm : condLookup m r.condition with
            | none => rw [hm] at hv'; simp at hv'
            | some vs0 =>
              rw [hm] at hv'
              exact ⟨vs0, rfl, by simpa using hv'⟩
          · exact Or.inr ⟨rfl, rfl⟩
        · rintro (⟨vs, hvs, hv⟩ | ⟨-, rfl⟩)
          · refine ⟨_, rfl, mem_setAddValue.mpr (Or.inl ?_)⟩
            rw [hvs]
            exact hv
          · exact ⟨_, rfl, mem_setAddValue.mpr (Or.inr rfl)⟩
      · rw [condLookup_condInsert_ne m r.value hc]
        constructor
        · exact Or.inl
        · rintro (h | ⟨hc', -⟩)
          · exact h
          · exact absurd hc'.symm hc
    rw [hbase]
    constructor
    · rintro ((h | h) | ⟨r', hr', hcv⟩)
      · exact Or.inl h
      · exact Or.inr ⟨r, List.mem_cons_self _ _, h⟩
      · exact Or.inr ⟨r', List.mem_cons_of_mem _ hr', hcv⟩
    · rintro (h | ⟨r', hr', hcv⟩)
      · exact Or.inl (Or.inl h)
      · rcases List.mem_cons.mp hr' with rfl | hr''
        · exact Or.inl (Or.inr hcv)
        · exact Or.inr ⟨r', hr'', hcv⟩

theorem foldRules_isSome (rs : List EdgeRule) (m : List (String × List Value))
    (c : String) :
    (condLookup (rs.foldl (fun m' r => condInsert m' r.condition r.value) m) c).isSome ↔
      (condLookup m c).isSome ∨ ∃ r ∈ rs, r.condition = c := by
  induction rs generalizing m with
  | nil => simp
  | cons r rest ih =>
    rw [List.foldl_cons, ih]
    have hbase : (condLookup (condInsert m r.condition r.value) c).isSome ↔
        (condLookup m c).isSome ∨ r.condition = c := by
      by_cases hc : c = r.condition
      · subst hc
        rw [condLookup_condInsert_self]
        simp
      · rw [condLookup_condInsert_ne m r.value hc]
        simp [Ne.symm hc]
    rw [hbase]
    constructor
    · rintro ((h | h) | ⟨r', hr', hc⟩)
      · exact Or.inl h
      · exact Or.inr ⟨r, List.mem_cons_self _ _, h⟩
      · exact Or.inr ⟨r', List.mem_cons_of_mem _ hr', hc⟩
    · rintro (h | ⟨r', hr', hc⟩)
      · exact Or.inl (Or.inl h)
      · rcases List.mem_cons.mp hr' with rfl | hr''
        · exact Or.inl (Or.inr hc)
        · exact Or.inr ⟨r', hr'', hc⟩

theorem foldRules_keys_nodup (rs : List EdgeRule) (m : List (String × List Value))
    (h : (m.map Prod.fst).Nodup) :
    (((rs.foldl (fun m' r => condInsert m' r.condition r.value) m)).map Prod.fst).Nodup := by
  induction rs generalizing m with
  | nil => simpa using h
  | cons r rest ih =>
    rw [List.foldl_cons]
    exact ih _ (condInsert_keys_nodup _ _ _ h)

theorem foldRules_values_nodup (rs : List EdgeRule) (m : List (String × List Value))
    (h : ∀ p ∈ m, List.Nodup p.2) :
    ∀ p ∈ rs.foldl (fun m' r => condInsert m' r.condition r.value) m,
      List.Nodup p.2 := by
  induction rs generalizing m with
  | nil => simpa using h
  | cons r rest ih =>
    rw [List.foldl_cons]
    exact ih _ (condInsert_values_nodup _ _ _ h)

theorem condLookup_of_mem (m : List (String × List Value))
    (h : (m.map Prod.fst).Nodup) :
    ∀ p ∈ m, condLookup m p.1 = some p.2 := by
  induction m with
  | nil => intro p hp; cases hp
  | cons q rest ih =>
    obtain ⟨k, vs⟩ := q
    simp only [List.map_cons, List.nodup_cons] at h
    intro p hp
    rcases List.mem_cons.mp hp with rfl | hp'
    · simp [condLookup]
    · have hk : k ≠ p.1 := by
        intro hkp
        exact h.1 (hkp ▸ List.mem_map_of_mem Prod.fst hp')
      simp only [condLookup, hk, if_false]
      exact ih h.2 p hp'

theorem mem_of_condLookup {m : List (String × List Value)} {c : String}
    {vs : List Value} (h : condLookup m c = some vs) : (c, vs) ∈ m := by
  induction m with
  | nil => cases h
  | cons q rest ih =>
    obtain ⟨k, vs'⟩ := q
    by_cases hk : k = c
    · subst hk
      simp only [condLookup, if_pos rfl] at h
      obtain rfl := Option.some.inj h
      exact List.mem_cons_self _ _
    · simp only [condLookup, hk, if_false] at h
      exact List.mem_cons_of_mem _ (ih h)

theorem charListLe_total : ∀ as bs : List Char,
    charListLe as bs = true ∨ charListLe bs as = true
  | [], _ => Or.inl rfl
  | _ :: _, [] => Or.inr rfl
  | a :: as, b :: bs => by
    simp only [charListLe]
    by_cases hab : a.toNat < b.toNat
    · left
      rw [if_pos hab]
    · by_cases hba : b.toNat < a.toNat
      · right
        rw [if_pos hba]
      · rw [if_neg hab, if_neg hba, if_neg hba, if_neg hab]
        exact charListLe_total as bs

theorem charListLe_trans : ∀ as bs cs : List Char,
    charListLe as bs = true → charListLe bs cs = true →
      charListLe as cs = true
  | [], _, _ => fun _ _ => rfl
  | a :: as, [], _ => fun hab => by cases hab
  | _ :: _, _ :: _, [] => fun _ hbc => by cases hbc
  | a :: as, b :: bs, c :: cs => fun hab hbc => by
    simp only [charListLe] at hab hbc ⊢
    by_cases h1 : a.toNat < b.toNat <;> by_cases h2 : b.toNat < a.toNat <;>
      by_cases h3 : b.toNat < c.toNat <;> by_cases h4 : c.toNat < b.toNat <;>
      by_cases h5 : a.toNat < c.toNat <;> by_cases h6 : c.toNat < a.toNat <;>
      simp only [h1, h2, h3, h4, h5, h6, if_pos, if_neg, if_true, if_false] at hab hbc ⊢ <;>
      first
        | rfl
        | omega
        | simp at hab
        | simp at hbc
        | (exact charListLe_trans as bs cs (by simpa using hab) (by simpa using hbc))

theorem strLe_total (s t : String) : strLe s t = true ∨ strLe t s = true :=
  charListLe_total s.data t.data

theorem strLe_trans {s t u : String} (h1 : strLe s t = true)
    (h2 : strLe t u = true) : strLe s u = true :=
  charListLe_trans s.data t.data u.data h1 h2

instance : IsTotal ConditionSchema schemaLe :=
  ⟨fun a b => strLe_total a.name b.name⟩

instance : IsTrans ConditionSchema schemaLe :=
  ⟨fun _ _ _ hab hbc => strLe_trans hab hbc⟩

instance : IsTotal Value valueLe :=
  ⟨fun a b => strLe_total (valueToString a) (valueToString b)⟩

instance : IsTrans Value valueLe :=
  ⟨fun _ _ _ hab hbc => strLe_trans hab hbc⟩

theorem perm_all_eq {α : Type} {l l' : List α} (h : l.Perm l') (P : α → Bool) :
    l.all P = l'.all P := by
  cases hh : l'.all P
  · rw [List.all_eq_false] at hh ⊢
    obtain ⟨x, hx, hpx⟩ := hh
    exact ⟨x, h.mem_iff.mpr hx, hpx⟩
  · rw [List.all_eq_true] at hh ⊢
    intro x hx
    exact hh x (h.mem_iff.mp hx)

/-- C6: for every edge list, `discoverConditions` returns one entry per
distinct condition name appearing in any rule, sorted by condition
name; each entry's options are the deduplicated observed values of the
condition sorted by the string form of each value (so numeric values
are string-sorted); and the inferred type is `boolean` when every
observed value is boolean, else `number` when every observed value is
numeric, else `enum`. -/
theorem discoverConditions_spec (edges : List FeatureEdge) :
    List.Pairwise schemaLe (discoverConditions edges) ∧
    ((discoverConditions edges).map ConditionSchema.name).Nodup ∧
    (∀ c : String, (∃ s ∈ discoverConditions edges, s.name = c) ↔
        ∃ e ∈ edges, ∃ r ∈ getRules e, r.condition = c) ∧
    (∀ s ∈ discoverConditions edges,
      List.Pairwise valueLe s.options ∧
      s.options.Nodup ∧
      (∀ v : Value, v ∈ s.options ↔
        ∃ e ∈ edges, ∃ r ∈ getRules e, r.condition = s.name ∧ r.value = v) ∧
      s.type = (if s.options.all Value.isBooleanVal then ConditionType.boolean
        else if s.options.all Value.isNumberVal then ConditionType.number
        else ConditionType.enum)) := by
  have hMkeys : ((conditionMap edges).map Prod.fst).Nodup := by
    rw [conditionMap_eq_foldl]
    exact foldRules_keys_nodup _ [] (by simp)
  have hMvals : ∀ p ∈ conditionMap edges, List.Nodup p.2 := by
    rw [conditionMap_eq_foldl]
    exact foldRules_values_nodup _ [] (by simp)
  have hMisSome : ∀ c, (condLookup (conditionMap edges) c).isSome ↔
      ∃ e ∈ edges, ∃ r ∈ getRules e, r.condition = c := by
    intro c
    rw [conditionMap_eq_foldl, foldRules_isSome]
    simp only [condLookup, Option.isSome_none, Bool.false_eq_true, false_or]
    constructor
    · rintro ⟨r, hr, rfl⟩
      obtain ⟨e, he, hre⟩ := mem_allRules.mp hr
      exact ⟨e, he, r, hre, rfl⟩
    · rintro ⟨e, he, r, hre, rfl⟩
      exact ⟨r, mem_allRules.mpr ⟨e, he, hre⟩, rfl⟩
  have hMval : ∀ (c : String) (v : Value),
      (∃ vs, condLookup (conditionMap edges) c = some vs ∧ v ∈ vs) ↔
        ∃ e ∈ edges, ∃ r ∈ getRules e, r.condition = c ∧ r.value = v := by
    intro c v
    rw [conditionMap_eq_foldl, foldRules_mem_value]
    simp only [condLookup]
    constructor
    · rintro (⟨vs, hvs, -⟩ | ⟨r, hr, rfl, rfl⟩)
      · cases hvs
      · obtain ⟨e, he, hre⟩ := mem_allRules.mp hr
        exact ⟨e, he, r, hre, rfl, rfl⟩
    · rintro ⟨e, he, r, hre, rfl, rfl⟩
      exact Or.inr ⟨r, mem_allRules.mpr ⟨e, he, hre⟩, rfl, rfl⟩
  have hdc : discoverConditions edges =
      ((conditionMap edges).map fun p =>
        ({ name := p.1, type := inferConditionType p.2,
           options := p.2.insertionSort valueLe } : ConditionSchema)).insertionSort
        schemaLe := rfl
  have hperm : (discoverConditions edges).Perm
      ((conditionMap edges).map fun p =>
        ({ name := p.1, type := inferConditionType p.2,
           options := p.2.insertionSort valueLe } : ConditionSchema)) := by
    rw [hdc]
    exact List.perm_insertionSort _ _
  refine ⟨?_, ?_, ?_, ?_⟩
  · rw [hdc]
    exact List.sorted_insertionSort schemaLe _
  · have h1 : ((discoverConditions edges).map ConditionSchema.name).Perm
        ((conditionMap edges).map Prod.fst) := by
      have := hperm.map ConditionSchema.name
      rwa [List.map_map] at this
    exact h1.nodup_iff.mpr hMkeys
  · intro c
    rw [← hMisSome c, condLookup_isSome_iff]
    constructor
    · rintro ⟨s, hs, rfl⟩
      obtain ⟨p, hp, rfl⟩ := List.mem_map.mp (hperm.mem_iff.mp hs)
      exact List.mem_map.mpr ⟨p, hp, rfl⟩
    · intro hc
      obtain ⟨p, hp, rfl⟩ := List.mem_map.mp hc
      exact ⟨_, hperm.mem_iff.mpr (List.mem_map.mpr ⟨p, hp, rfl⟩), rfl⟩
  · intro s hs
    obtain ⟨p, hp, rfl⟩ := List.mem_map.mp (hperm.mem_iff.mp hs)
    have hoptperm : (p.2.insertionSort valueLe).Perm p.2 :=
      List.perm_insertionSort valueLe p.2
    have hlookup : condLookup (conditionMap edges) p.1 = some p.2 :=
      condLookup_of_mem (conditionMap edges) hMkeys p hp
    refine ⟨List.sorted_insertionSort valueLe p.2, ?_, ?_, ?_⟩
    · exact hoptperm.nodup_iff.mpr (hMvals p hp)
    · intro v
      show v ∈ p.2.insertionSort valueLe ↔ _
      rw [hoptperm.mem_iff, ← hMval p.1 v]
      constructor
      · intro hv
        exact ⟨p.2, hlookup, hv⟩
      · rintro ⟨vs, hvs, hv⟩
        rw [hlookup] at hvs
        obtain rfl := Option.some.inj hvs
        exact hv
    · show inferConditionType p.2 = _
      have hall : ∀ P : Value → Bool,
          (p.2.insertionSort valueLe).all P = p.2.all P :=
        fun P => perm_all_eq hoptperm P
      rw [inferConditionType, ← hall Value.isBooleanVal, ← hall Value.isNumberVal]

/-- Monotonicity of the traversal: the reachable set only grows, so in
particular every seed (root) id survives into the final result.  This
needs no assumption on edge ids. -/
theorem bfsLoop_reachable_mono (edges : List FeatureEdge) (state : SimulationState)
    (queue visited reachable : List String) (ve : List (String × Bool))
    {x : String} (hx : x ∈ reachable) :
    x ∈ (bfsLoop edges state queue visited reachable ve).1 := by
  induction queue, visited, reachable, ve using bfsLoop.induct edges state with
  | case1 visited reachable ve =>
    rw [bfsLoop_nil]
    exact hx
  | case2 visited reachable ve nodeId rest hvis ih =>
    rw [bfsLoop_cons_visited edges state rest reachable ve hvis]
    exact ih hx
  | case3 visited reachable ve nodeId rest hnvis visitedStep nodeEdgesStep resStep ih =>
    have hvis : visited.contains nodeId = false := by simpa using hnvis
    rw [bfsLoop_cons_unvisited edges state rest reachable ve hvis]
    exact ih (processEdges_reachable_mono state _ reachable ve rest hx)

/-! ### Concrete fixtures used by the claim witnesses -/

def nA : FeatureNode := { id := "A" }
def nB : FeatureNode := { id := "B" }
def nC : FeatureNode := { id := "C" }
def nD : FeatureNode := { id := "D" }

/-- `role is "admin"`. -/
def ruleRoleAdmin : EdgeRule :=
  { id := "r1", condition := "role", operator := .is, value := .str "admin" }

/-- `A -> B` gated by `role is "admin"`. -/
def eAB : FeatureEdge :=
  { id := "e1", source := "A", target := "B",
    data := some { rules := some [ruleRoleAdmin] } }

/-- `B -> C` with an empty rule list. -/
def eBC : FeatureEdge :=
  { id := "e2", source := "B", target := "C", data := some { rules := some [] } }

/-- `X -> D` with a dangling source and no `data` payload. -/
def eXD : FeatureEdge :=
  { id := "e3", source := "X", target := "D" }

/-- The three-edge cycle `A -> B -> C -> A` with no rules. -/
def cycleEdges : List FeatureEdge :=
  [{ id := "c1", source := "A", target := "B" },
   { id := "c2", source := "B", target := "C" },
   { id := "c3", source := "C", target := "A" }]

/-- The chain `A -> B -> C -> D`. -/
def chainEdges : List FeatureEdge :=
  [{ id := "h1", source := "A", target := "B" },
   { id := "h2", source := "B", target := "C" },
   { id := "h3", source := "C", target := "D" }]

/-- Edges whose rules use condition `age` with values `30`, `25` and
`"unknown"`. -/
def ageRule1 : EdgeRule :=
  { id := "ar1", condition := "age", operator := .greater_than, value := .num 30 }

def ageRule2 : EdgeRule :=
  { id := "ar2", condition := "age", operator := .less_than, value := .num 25 }

def ageRule3 : EdgeRule :=
  { id := "ar3", condition := "age", operator := .is, value := .str "unknown" }

def ageEdges : List FeatureEdge :=
  [{ id := "a1", source := "A", target := "B",
     data := some { rules := some [ageRule1, ageRule2] } },
   { id := "a2", source := "A", target := "C",
     data := some { rules := some [ageRule3] } }]

/-- The context `{ role: v }`. -/
def ctxRole (v : String) : SimulationState := [("role", Value.str v)]

/-! ### The claims -/

/-- C3: for every rule `r` and simulation context `c` with no entry for
`r.condition`, `evaluateRule r c` returns `true` whatever the rule's
operator and value are: an absent condition never blocks a rule
(default-open policy). -/
theorem evaluateRule_unconstrained_default (r : EdgeRule) (c : SimulationState)
    (h : lookupState c r.condition = none) : evaluateRule r c = true := by
  unfold evaluateRule
  rw [h]

/-- A `role > 3` rule used by the C3 witness. -/
def ruleGtRole : EdgeRule :=
  { id := "w1", condition := "role", operator := .greater_than, value := .num 3 }

/-- An `x > 5` rule used by the C4 witness. -/
def ruleGtX : EdgeRule :=
  { id := "w2", condition := "x", operator := .greater_than, value := .num 5 }

/-- The context `{ x: true }` used by the C4 witness. -/
def ctxXTrue : SimulationState := [("x", Value.bool true)]

/-- Witness for C3 at a concrete rule (a `greater_than` rule on `role`)
and a concrete context binding only an unrelated condition. -/
theorem evaluateRule_unconstrained_default_witness :
    lookupState [("x", Value.num 1)] "role" = none ∧
      evaluateRule ruleGtRole [("x", Value.num 1)] = true :=
  ⟨by decide,
   evaluateRule_unconstrained_default ruleGtRole [("x", Value.num 1)] (by decide)⟩

/-- C4: when the rule's condition is bound to `v` in the context,
`is` is strict equality of `Value`s (so a number is never equal to a
string), `is_not` is strict inequality, and `greater_than`/`less_than`
hold exactly when both sides are numbers and the integer comparison
holds — any type mismatch yields `false`.  `evaluateRule` is a total
function: it returns a boolean on every input and can raise no
exception. -/
theorem evaluateRule_operator_semantics (r : EdgeRule) (c : SimulationState)
    (v : Value) (h : lookupState c r.condition = some v) :
    (r.operator = RuleOperator.is →
      (evaluateRule r c = true ↔ v = r.value)) ∧
    (r.operator = RuleOperator.is_not →
      (evaluateRule r c = true ↔ v ≠ r.value)) ∧
    (r.operator = RuleOperator.greater_than →
      (evaluateRule r c = true ↔
        ∃ a b : Int, v = Value.num a ∧ r.value = Value.num b ∧ b < a)) ∧
    (r.operator = RuleOperator.less_than →
      (evaluateRule r c = true ↔
        ∃ a b : Int, v = Value.num a ∧ r.value = Value.num b ∧ a < b)) := by
  refine ⟨fun hop => ?_, fun hop => ?_, fun hop => ?_, fun hop => ?_⟩ <;>
    unfold evaluateRule <;> rw [h, hop]
  · simp [beq_iff_eq]
  · simp [beq_iff_eq]
  · cases v <;> cases hv : r.value <;> simp [hv, Int.lt_iff_add_one_le]
  · cases v <;> cases hv : r.value <;> simp [hv]

/-- Witness for C4: the condition `x` is bound to the boolean `true`
while the rule compares `x > 5`; the characterisation specialises to
the type-mismatch case and the rule indeed evaluates to `false`. -/
theorem evaluateRule_operator_semantics_witness :
    (evaluateRule ruleGtX ctxXTrue = true ↔
      ∃ a b : Int, Value.bool true = Value.num a ∧
        ruleGtX.value = Value.num b ∧ b < a) ∧
    evaluateRule ruleGtX ctxXTrue = false ∧
    Value.num 5 ≠ Value.str "5" :=
  ⟨((evaluateRule_operator_semantics ruleGtX ctxXTrue (Value.bool true)
      (by decide)).2.2.1 rfl),
   by decide, by decide⟩

/-- C8: `evaluateEdgeRules` is the AND-reduction of `evaluateRule` over
the edge's rule list — it is `true` exactly when every rule on the edge
passes — and an edge with an empty rule list yields `true` for any
context. -/
theorem evaluateEdgeRules_and_reduction (edge : FeatureEdge) (state : SimulationState) :
    (evaluateEdgeRules edge state = true ↔
      ∀ r ∈ getRules edge, evaluateRule r state = true) ∧
    (getRules edge = [] → evaluateEdgeRules edge state = true) := by
  constructor
  · simp only [evaluateEdgeRules]
    split
    · rename_i hlen
      rw [List.length_eq_zero] at hlen
      simp [hlen]
    · simp [List.all_eq_true]
  · intro h
    simp [evaluateEdgeRules, h]

/-- Witness for C8 at the concrete edge `B -> C`, whose rule list is
empty, under a nonempty context. -/
theorem evaluateEdgeRules_and_reduction_witness :
    getRules eBC = [] ∧ evaluateEdgeRules eBC (ctxRole "guest") = true :=
  ⟨by decide,
   (evaluateEdgeRules_and_reduction eBC (ctxRole "guest")).2 (by decide)⟩

/-- C10: an edge whose `data` field is absent, or whose `data.rules`
field is absent, is treated by `evaluateEdgeRules` exactly like an edge
with an empty rule list: its rule list is `[]` and it evaluates to
`true` under every context, so in `evaluateFlow` such an edge is gated
only by the reachability of its source. -/
theorem evaluateEdgeRules_missing_data (edge : FeatureEdge)
    (h : edge.data = none ∨ ∃ d, edge.data = some d ∧ d.rules = none) :
    getRules edge = [] ∧
      ∀ state : SimulationState, evaluateEdgeRules edge state = true := by
  have hg : getRules edge = [] := by
    rcases h with h | ⟨d, hd, hr⟩
    · simp [getRules, h]
    · simp [getRules, hd, hr]
  exact ⟨hg, fun state => by simp [evaluateEdgeRules, hg]⟩

/-- Witness for C10 at the concrete edge `X -> D`, which has no `data`
payload at all. -/
theorem evaluateEdgeRules_missing_data_witness :
    getRules eXD = [] ∧ evaluateEdgeRules eXD (ctxRole "admin") = true := by
  have h := evaluateEdgeRules_missing_data eXD (Or.inl (by decide))
  exact ⟨h.1, h.2 (ctxRole "admin")⟩

/-- C1: for every node list, edge list with unique edge ids and
context, the validity map returned by `evaluateFlow` has exactly one
entry per input edge (an entry for every edge id, duplicate-free keys,
and no key that is not an edge id), and an entry is `true` exactly when
the edge's source is in the returned reachable set and the edge's rules
are satisfied; in particular every edge whose source is never reached
is recorded (as `false`), never omitted. -/
theorem evaluateFlow_validEdges_complete (nodes : List FeatureNode)
    (edges : List FeatureEdge) (state : SimulationState)
    (hids : (edges.map FeatureEdge.id).Nodup) :
    (∀ e ∈ edges,
      (mapLookup (evaluateFlow nodes edges state).validEdges e.id).isSome) ∧
    ((evaluateFlow nodes edges state).validEdges.map Prod.fst).Nodup ∧
    (∀ k, k ∈ (evaluateFlow nodes edges state).validEdges.map Prod.fst →
      ∃ e ∈ edges, e.id = k) ∧
    (∀ e ∈ edges,
      (mapLookup (evaluateFlow nodes edges state).validEdges e.id = some true ↔
        e.source ∈ (evaluateFlow nodes edges state).reachableNodes ∧
          evaluateEdgeRules e state = true)) := by
  obtain ⟨h1, h2, h3, h4, h5⟩ := evaluateFlow_spec nodes edges state hids
  exact ⟨h1, h3, h4, h2⟩

unseal bfsLoop in
/-- Witness for C1 at the concrete graph `A -> B -> C` plus a dangling
edge `X -> D`, under the context `{ role: "guest" }`: the map has an
entry for every edge, and the dangling edge is recorded as `false`. -/
theorem evaluateFlow_validEdges_complete_witness :
    (∀ e ∈ [eAB, eBC, eXD],
      (mapLookup (evaluateFlow [nA, nB, nC, nD] [eAB, eBC, eXD]
        (ctxRole "guest")).validEdges e.id).isSome) ∧
    mapLookup (evaluateFlow [nA, nB, nC, nD] [eAB, eBC, eXD]
      (ctxRole "guest")).validEdges "e3" = some false :=
  ⟨(evaluateFlow_validEdges_complete [nA, nB, nC, nD] [eAB, eBC, eXD]
      (ctxRole "guest") (by decide)).1,
   by decide⟩

unseal bfsLoop in
/-- C2: `evaluateFlow` treats exactly the nodes that are not the target
of any edge as root nodes, and every root node is reachable regardless
of the context; for the two-node edgeless graph it returns both nodes
reachable and an empty validity map. -/
theorem evaluateFlow_roots :
    (∀ (nodes : List FeatureNode) (edges : List FeatureEdge) (n : FeatureNode),
      n ∈ rootNodes nodes edges ↔ n ∈ nodes ∧ ∀ e ∈ edges, e.target ≠ n.id) ∧
    (∀ (nodes : List FeatureNode) (edges : List FeatureEdge)
        (state : SimulationState) (n : FeatureNode),
      n ∈ nodes → (∀ e ∈ edges, e.target ≠ n.id) →
        n.id ∈ (evaluateFlow nodes edges state).reachableNodes) ∧
    evaluateFlow [nA, nB] [] [] =
      { reachableNodes := ["A", "B"], validEdges := [] } := by
  refine ⟨fun nodes edges n => mem_rootNodes_iff nodes edges n, ?_, by decide⟩
  intro nodes edges state n hn hroot
  have hmem : n.id ∈ (rootNodes nodes edges).foldl (fun s n => setAdd s n.id) [] :=
    (mem_foldl_setAdd _ _ _).mpr
      (Or.inr ⟨n, (mem_rootNodes_iff _ _ _).mpr ⟨hn, hroot⟩, rfl⟩)
  exact bfsLoop_reachable_mono edges state _ _ _ _ hmem

/-- Witness for C2: in the two-node edgeless graph, node `A` is a root
and is reachable. -/
theorem evaluateFlow_roots_witness :
    "A" ∈ (evaluateFlow [nA, nB] [] []).reachableNodes :=
  evaluateFlow_roots.2.1 [nA, nB] [] [] nA (by decide) (by decide)

/-- C5: on the three-node cycle `A -> B -> C -> A` every node has an
incoming edge, so the root set is empty, the returned reachable set is
empty, and all three edges are mapped to `false` — for every context,
and the computation is a total function, so it terminates (in the
embedding the traversal is well-founded recursion on a measure that
decreases because each node is expanded at most once). -/
theorem evaluateFlow_cycle_termination (state : SimulationState) :
    rootNodes [nA, nB, nC] cycleEdges = [] ∧
    evaluateFlow [nA, nB, nC] cycleEdges state =
      { reachableNodes := [],
        validEdges := [("c1", false), ("c2", false), ("c3", false)] } := by
  have h0 : rootNodes [nA, nB, nC] cycleEdges = [] := by decide
  refine ⟨h0, ?_⟩
  simp only [evaluateFlow, h0, List.foldl_nil, List.map_nil]
  rw [bfsLoop_nil]
  rfl

/-- Witness for C5 at the concrete context `{ role: "admin" }`. -/
theorem evaluateFlow_cycle_termination_witness :
    evaluateFlow [nA, nB, nC] cycleEdges (ctxRole "admin") =
      { reachableNodes := [],
        validEdges := [("c1", false), ("c2", false), ("c3", false)] } :=
  (evaluateFlow_cycle_termination (ctxRole "admin")).2

/-- C9: for unique edge ids, the reachable set of every `evaluateFlow`
result is exactly the union of the root ids (nodes that are the target
of no edge) with the targets of the edges mapped to `true` in the
validity map — no other id ever appears in it. -/
theorem evaluateFlow_reachable_invariant (nodes : List FeatureNode)
    (edges : List FeatureEdge) (state : SimulationState)
    (hids : (edges.map FeatureEdge.id).Nodup) :
    ∀ x : String, x ∈ (evaluateFlow nodes edges state).reachableNodes ↔
      (∃ n ∈ nodes, n.id = x ∧ ∀ e ∈ edges, e.target ≠ n.id) ∨
      ∃ e ∈ edges, e.target = x ∧
        mapLookup (evaluateFlow nodes edges state).validEdges e.id = some true :=
  (evaluateFlow_spec nodes edges state hids).2.2.2.2

/-- Witness for C9 at the concrete graph `A -> B -> C` plus `X -> D`
under `{ role: "admin" }`, instantiated at the node id `C`. -/
theorem evaluateFlow_reachable_invariant_witness :
    "C" ∈ (evaluateFlow [nA, nB, nC, nD] [eAB, eBC, eXD]
        (ctxRole "admin")).reachableNodes ↔
      (∃ n ∈ [nA, nB, nC, nD], n.id = "C" ∧
        ∀ e ∈ [eAB, eBC, eXD], e.target ≠ n.id) ∨
      ∃ e ∈ [eAB, eBC, eXD], e.target = "C" ∧
        mapLookup (evaluateFlow [nA, nB, nC, nD] [eAB, eBC, eXD]
          (ctxRole "admin")).validEdges e.id = some true :=
  evaluateFlow_reachable_invariant [nA, nB, nC, nD] [eAB, eBC, eXD]
    (ctxRole "admin") (by decide) "C"

/-- Witness for C6 at the concrete condition `age` observed with values
`30`, `25` and `"unknown"`: the condition is discovered, classified
`enum`, and its options are sorted by string form as
`["25", "30", "unknown"]`. -/
theorem discoverConditions_spec_witness :
    (∃ s ∈ discoverConditions ageEdges, s.name = "age") ∧
    discoverConditions ageEdges =
      [{ name := "age", type := ConditionType.enum,
         options := [Value.num 25, Value.num 30, Value.str "unknown"] }] :=
  ⟨((discoverConditions_spec ageEdges).2.2.1 "age").mpr (by decide), by decide⟩

unseal traceLoop in
/-- C7: the ancestor trace depends only on the focus node id and the
edge list (its embedding takes no simulation context and reads no rule
contents) and returns exactly the backward connectivity closure; a
focus node with no incoming edges yields only itself and no edges, and
on the chain `A -> B -> C -> D` tracing from `D` highlights all four
nodes and all three edges. -/
theorem traceHighlight_connectivity :
    (∀ (focus : String) (edges : List FeatureEdge),
      (∀ x, x ∈ (traceHighlight focus edges).1 ↔ BackReach edges focus x) ∧
      (∀ i, i ∈ (traceHighlight focus edges).2 ↔
        ∃ e ∈ edges, e.id = i ∧ BackReach edges focus e.target)) ∧
    (∀ (focus : String) (edges : List FeatureEdge),
      (∀ e ∈ edges, e.target ≠ focus) →
        traceHighlight focus edges = ([focus], [])) ∧
    traceHighlight "D" chainEdges = (["D", "C", "B", "A"], ["h3", "h2", "h1"]) := by
  refine ⟨fun focus edges => traceHighlight_spec focus edges, ?_, by decide⟩
  intro focus edges h
  have hf : (edges.filter fun e => e.target == focus) = [] := by
    rw [List.filter_eq_nil]
    intro e he
    simpa using h e he
  rw [traceHighlight, traceLoop_cons, hf]
  show traceLoop edges [] [focus] [] = ([focus], [])
  rw [traceLoop_nil]

/-- Witness for C7: the closure characterisation instantiated at the
chain graph, plus the root case at `A`, which has no incoming edges. -/
theorem traceHighlight_connectivity_witness :
    ("A" ∈ (traceHighlight "D" chainEdges).1 ↔ BackReach chainEdges "D" "A") ∧
    traceHighlight "A" chainEdges = (["A"], []) :=
  ⟨(traceHighlight_connectivity.1 "D" chainEdges).1 "A",
   traceHighlight_connectivity.2.1 "A" chainEdges (by decide)⟩

end DecisionTree
